import Mathlib

/-!
Verification development for the worker-pool module of the unmanic repository
(file src/lib/worker.py).  The file shallowly embeds the two classes of that
module:

* class WorkerThread (the "execution unit"): its polling loop run() is embedded
  as a labelled small-step transition system over a configuration record, so
  that the concurrent setting of the redundant flag and concurrent queue
  traffic can be interleaved with the loop's own steps at exactly the
  granularity at which the Python code observes them (the flag is only read in
  the two while-loop guards; task processing happens between guard reads).

* class Worker (the "supervisor"): its registry-reconciliation method
  initWorkerThreads is embedded as a pure function over an association-list
  registry (Python dict preserving insertion order), returning Option since the
  method indexes the dict by the positions range(len(dict)) and can raise
  KeyError; the completion-drain and dispatch loops of Worker.run are embedded
  as structural recursions over the queue contents.

Machine integers play no role (all counts are small naturals); queues are
lists; the Python queue.Queue of maxsize 1 is a record with its capacity.
-/

/-- Python range from a of length n as a list: a, a+1, ..., a+n-1. -/
def natRange : Nat → Nat → List Nat
  | _, 0 => []
  | a, n + 1 => a :: natRange (a + 1) n

/-- Python range(n) as used by initWorkerThreads: range evaluated once at loop entry. -/
def pyRange (n : Nat) : List Nat := natRange 0 n

/-- Progress snapshot fields that getJobProgress reads from the task's ffmpeg
handler (worker.py lines 70-83); every field is read through str(), so they are
strings here. -/
structure FFProgress where
  duration : String
  src_fps : String
  elapsed : String
  time : String
  percent : String
  frame : String
  fps : String
  speed : String
  bitrate : String
  file_size : String
deriving DecidableEq, Repr

/-- A task handed to the pool by the external job queue.  The tid field is the
task's identity (used to speak about "the same task" across the success-flag
mutation at worker.py line 117); success is None until the worker assigns it. -/
structure UTask where
  tid : Nat
  source_abspath : String
  source_basename : String
  cache_path : String
  success : Option Bool
  ffmpeg : FFProgress
deriving DecidableEq, Repr

/-- Embedding of Python queue.Queue(maxsize): items plus the configured bound.
A maxsize of 0 means unbounded, as in CPython. -/
structure PyQueue where
  maxsize : Nat
  items : List UTask
deriving DecidableEq, Repr

/-- Queue.put: inserts when below capacity (maxsize 0 is unbounded).  A put at
capacity blocks in CPython; the blocked producer inserts nothing, so at the
level of queue contents a put at capacity leaves the queue unchanged (the
eventual wake-up insert is a later put). -/
def PyQueue.put (q : PyQueue) (t : UTask) : PyQueue :=
  if q.maxsize = 0 ∨ q.items.length < q.maxsize then
    { q with items := q.items ++ [t] }
  else q

/-- Queue.get_nowait: pops the head, or raises queue.Empty (modelled as none). -/
def PyQueue.get_nowait (q : PyQueue) : Option UTask × PyQueue :=
  match q.items with
  | [] => (none, q)
  | t :: rest => (some t, { q with items := rest })

/-- Queue.full: true iff a positive maxsize has been reached. -/
def PyQueue.full (q : PyQueue) : Bool :=
  if 0 < q.maxsize ∧ q.maxsize ≤ q.items.length then true else false

/-- One operation on a shared queue: a producer put or a consumer get_nowait. -/
inductive QOp
  | put (t : UTask)
  | getNowait
deriving DecidableEq, Repr

/-- Apply one queue operation. -/
def applyQOp (q : PyQueue) : QOp → PyQueue
  | QOp.put t => q.put t
  | QOp.getNowait => (q.get_nowait).2

/-- Apply a whole history of queue operations in order. -/
def applyQOps (q : PyQueue) : List QOp → PyQueue
  | [] => q
  | op :: ops => applyQOps (applyQOp q op) ops

/-- The Handoff Queue as constructed in Worker.__init__ (worker.py line 140):
self.task_queue = queue.Queue(maxsize=1). -/
def task_queue_init : PyQueue := { maxsize := 1, items := [] }

/-- The Completion Channel as constructed in Worker.__init__ (line 141):
self.complete_queue = queue.Queue(), unbounded. -/
def complete_queue_init : PyQueue := { maxsize := 0, items := [] }

/-- The dispatch loop body of Worker.run (worker.py lines 213-223) restricted
to its queue effect: while incoming items remain, break if task_queue.full(),
else pull the next incoming item and put it on the handoff queue.  Returns the
final queue and the incoming items not yet dispatched. -/
def dispatchLoop : PyQueue → List UTask → PyQueue × List UTask
  | q, [] => (q, [])
  | q, t :: rest => if q.full then (q, t :: rest) else dispatchLoop (q.put t) rest

/-- The completion-drain loop of Worker.run (worker.py lines 202-211): while
the abort flag is clear and the completion channel is non-empty, pop one task
and hand it to job_queue.mark_item_as_processed.  The first component collects
the arguments of the mark_item_as_processed calls in order (appended to acc);
the second is what remains on the channel. -/
def drainCompletions (abort : Bool) : List UTask → List UTask → List UTask × List UTask
  | [], acc => (acc, [])
  | t :: rest, acc =>
    if abort then (acc, t :: rest)
    else drainCompletions abort rest (acc ++ [t])

/-- The supervisor's per-unit view of a WorkerThread: the three members that
initWorkerThreads reads or writes, namely threadID, isAlive() and
redundant_flag. -/
structure ThreadView where
  threadID : Nat
  alive : Bool
  redundant : Bool
deriving DecidableEq, Repr

/-- The registry self.worker_threads: a Python dict keyed by worker id.  A dict
preserves insertion order and holds each key once, so it is an association
list here. -/
abbrev Registry := List (Nat × ThreadView)

/-- Dict lookup d[k]: first (only) entry with the key, or KeyError (none). -/
def regFind : Registry → Nat → Option ThreadView
  | [], _ => none
  | (k, v) :: rest, i => if k = i then some v else regFind rest i

/-- Dict deletion del d[k]: removes the entry with the key, keeping order. -/
def regErase : Registry → Nat → Registry
  | [], _ => []
  | (k, v) :: rest, i => if k = i then rest else (k, v) :: regErase rest i

/-- Dict assignment d[k] = v: overwrites in place when the key exists,
otherwise appends at the end (insertion order). -/
def regSet : Registry → Nat → ThreadView → Registry
  | [], i, w => [(i, w)]
  | (k, v) :: rest, i, w => if k = i then (i, w) :: rest else (k, v) :: regSet rest i w

/-- The key list of the registry, in iteration order. -/
def regKeys (r : Registry) : List Nat := r.map Prod.fst

/-- The supervisor state that initWorkerThreads touches: the registry and
self.remove_list (worker.py lines 142-143). -/
structure SupervisorState where
  worker_threads : Registry
  remove_list : List Nat
deriving DecidableEq, Repr

/-- The view of a thread freshly created by startWorkerThread(worker_id)
(worker.py lines 174-177): WorkerThread(worker_id, ...) started, so its
threadID is the id, it is alive, and its redundant flag is cleared. -/
def freshThread (i : Nat) : ThreadView := ⟨i, true, false⟩

/-- The dead-entry-removal loop of initWorkerThreads (worker.py lines 153-155):
for thread in range(len(worker_threads)): if not worker_threads[thread].isAlive():
del worker_threads[thread].  The index list is fixed at entry; each lookup can
raise KeyError, hence Option. -/
def removeDeadGo : Registry → List Nat → Option Registry
  | r, [] => some r
  | r, i :: is =>
    match regFind r i with
    | none => none
    | some wt => removeDeadGo (if wt.alive then r else regErase r i) is

/-- The removal loop with its index list range(len(worker_threads)). -/
def removeDead (r : Registry) : Option Registry :=
  removeDeadGo r (pyRange r.length)

/-- The spawning loop body (worker.py lines 159-162): for i in range(N): if i
not in worker_threads, startWorkerThread(i). -/
def spawnGo : Registry → List Nat → Registry
  | r, [] => r
  | r, i :: is =>
    spawnGo (if (regFind r i).isSome then r else regSet r i (freshThread i)) is

/-- The spawning phase (worker.py lines 156-162), guarded by
len(worker_threads) < NUMBER_OF_WORKERS. -/
def spawnMissing (N : Nat) (r : Registry) : Registry :=
  if r.length < N then spawnGo r (pyRange N) else r

/-- The retirement-signaling loop (worker.py lines 167-171): for thread in
range(len(worker_threads)): if worker_threads[thread].threadID >= N, set the
redundant flag and append the index to remove_list.  No already-signaled check
exists in the source: the flag is set and the index appended unconditionally
whenever threadID >= N.  Lookups can raise KeyError, hence Option. -/
def signalGo (N : Nat) : SupervisorState → List Nat → Option SupervisorState
  | st, [] => some st
  | st, i :: is =>
    match regFind st.worker_threads i with
    | none => none
    | some wt =>
      if N ≤ wt.threadID then
        signalGo N ⟨regSet st.worker_threads i { wt with redundant := true },
                    st.remove_list ++ [i]⟩ is
      else signalGo N st is

/-- The retirement-signaling phase (worker.py lines 163-172), guarded by
len(worker_threads) > NUMBER_OF_WORKERS. -/
def signalRedundant (N : Nat) (st : SupervisorState) : Option SupervisorState :=
  if N < st.worker_threads.length then signalGo N st (pyRange st.worker_threads.length)
  else some st

/-- Worker.initWorkerThreads (worker.py lines 151-172) with the configured
target N = int(settings.NUMBER_OF_WORKERS): remove dead entries, spawn missing
ids in range(N) if under the limit, then signal retirement on ids >= N if over
the limit.  Returns none exactly when one of the two index loops raises
KeyError. -/
def initWorkerThreads (N : Nat) (st : SupervisorState) : Option SupervisorState :=
  match removeDead st.worker_threads with
  | none => none
  | some r1 => signalRedundant N ⟨spawnMissing N r1, st.remove_list⟩

/-- A dense registry: ids 0..k-1 in ascending insertion order, entry i holding
the view f i. -/
def denseRegistry (k : Nat) (f : Nat → ThreadView) : Registry :=
  (pyRange k).map (fun i => (i, f i))

/-- The effect of redundant_flag.set() on a unit's view. -/
def retireEntry (w : ThreadView) : ThreadView := { w with redundant := true }

/-- Stabilization of the pool between reconciliation ticks: every unit whose
redundant flag is set leaves its run loop (worker.py lines 107 and 130) and
stops being alive; nothing else changes. -/
def killRedundant (r : Registry) : Registry :=
  r.map (fun p => (p.1, if p.2.redundant then { p.2 with alive := false } else p.2))

/-- Dense-key precondition under which dict indexing by list positions is
total: the keys are pairwise distinct and every position below the length is a
key, i.e. the key set is exactly 0..len-1. -/
def KeysDense (r : Registry) : Prop :=
  (regKeys r).Nodup ∧ ∀ i < r.length, i ∈ regKeys r

/-- External collaborator interface of the settings object, as consumed by
Worker: the configured concurrency target and the read_history_log method that
getAllHistoricalTasks calls (worker.py line 236). -/
structure SettingsModel where
  NUMBER_OF_WORKERS : Nat
  read_history_log : List UTask
deriving DecidableEq, Repr

/-- External collaborator interface of the job queue, as consumed by Worker:
its own history log and the incoming items. -/
structure JobQueueModel where
  read_history_log : List UTask
  incoming : List UTask
deriving DecidableEq, Repr

/-- The Worker members involved in the status and history surface. -/
structure WorkerModel where
  settings : SettingsModel
  job_queue : JobQueueModel
deriving DecidableEq, Repr

/-- Worker.getAllHistoricalTasks (worker.py lines 235-236):
return self.settings.read_history_log().  The receiver in the source is the
settings object, not the job queue. -/
def getAllHistoricalTasks (w : WorkerModel) : List UTask :=
  w.settings.read_history_log

/-- Outcome of one execution of WorkerThread.process_item (worker.py lines
85-103) for a given task, as determined by the external conversion engine:
generate_ffmpeg_args returned a falsy value (process_item returns False
without converting), convert_file_and_fetch_progress returned ok, or an
exception escaped (from ensureDir, argument generation or conversion). -/
inductive ConvOutcome
  | args_none
  | converted (ok : Bool)
  | raises
deriving DecidableEq, Repr

/-- The boolean that process_item returns on the two non-raising outcomes:
False when generate_ffmpeg_args was falsy, otherwise the engine's boolean. -/
def processSuccess : ConvOutcome → Bool
  | ConvOutcome.args_none => false
  | ConvOutcome.converted ok => ok
  | ConvOutcome.raises => false

/-- The task as pushed to the Completion Channel on the non-raising path: the
claimed task with its success member assigned (worker.py line 117) before the
put at line 121. -/
def finishedTask (conv : Nat → ConvOutcome) (t : UTask) : UTask :=
  { t with success := some (processSuccess (conv t.tid)) }

/-- Log events emitted by WorkerThread.run, identified by position in the
source rather than by their formatted text. -/
inductive LogEntry
  | started
  | pickedUp (tid : Nat)
  | finished (tid : Nat)
  | excInJob (tid : Nat)
  | stopping
deriving DecidableEq, Repr

/-- Program counter of WorkerThread.run (worker.py lines 105-130): the outer
while guard (line 107), the inner while guard (line 109), the point after idle
was cleared and before get_nowait returns (lines 111-112), the body holding a
claimed task (lines 113-124), the sleep at line 129, and termination at line
130. -/
inductive WTPc
  | outerCheck
  | innerCheck
  | tryClaim
  | processing (t : UTask)
  | sleeping
  | stopped
deriving DecidableEq, Repr

/-- Configuration of one WorkerThread together with the shared objects its loop
touches: self.idle, self.current_task, the shared task_queue contents, the
shared complete_queue contents, the thread's redundant flag and its log. -/
structure WTConfig where
  pc : WTPc
  idle : Bool
  current_task : Option UTask
  task_queue : List UTask
  complete_queue : List UTask
  redundant_flag : Bool
  log : List LogEntry
deriving DecidableEq, Repr

/-- Transition labels: claim and push carry the task identity; setFlag, enqueue
and steal are environment actions (the supervisor setting the redundant flag,
the supervisor putting an item on the handoff queue, a sibling unit taking the
head of the handoff queue). -/
inductive WLabel
  | tick
  | claim (tid : Nat)
  | push (tid : Nat)
  | exc (tid : Nat)
  | emptyCaught
  | setFlag
  | enqueue (t : UTask)
  | steal
deriving DecidableEq, Repr

/-- Environment labels: actions of the supervisor or of sibling units, not of
the unit under observation. -/
def envLabel : WLabel → Prop
  | WLabel.setFlag => True
  | WLabel.enqueue _ => True
  | WLabel.steal => True
  | _ => False

/-- Labelled small-step semantics of WorkerThread.run interleaved with its
environment.  The parameter conv fixes, per task identity, how process_item
behaves for that task.  Guard reads of redundant_flag happen exactly where the
source reads the flag (lines 107 and 109); the body lines 113-124 run without
re-reading it.  On the raising branch (lines 127-128) current_task is not
cleared and no push happens; on the non-raising branch the task is pushed with
its success flag assigned (line 117, 121) and current_task is cleared to the
falsy empty dict (line 124, merged with None into none here). -/
inductive WStep (conv : Nat → ConvOutcome) : WTConfig → WLabel → WTConfig → Prop
  | outer_stop (c : WTConfig) :
      c.pc = WTPc.outerCheck → c.redundant_flag = true →
      WStep conv c WLabel.tick
        { c with pc := WTPc.stopped, log := c.log ++ [LogEntry.stopping] }
  | outer_enter (c : WTConfig) :
      c.pc = WTPc.outerCheck → c.redundant_flag = false →
      WStep conv c WLabel.tick { c with pc := WTPc.innerCheck, idle := true }
  | inner_exit (c : WTConfig) :
      c.pc = WTPc.innerCheck → (c.redundant_flag = true ∨ c.task_queue = []) →
      WStep conv c WLabel.tick { c with pc := WTPc.sleeping }
  | inner_enter (c : WTConfig) :
      c.pc = WTPc.innerCheck → c.redundant_flag = false → c.task_queue ≠ [] →
      WStep conv c WLabel.tick { c with pc := WTPc.tryClaim, idle := false }
  | claim_ok (c : WTConfig) (t : UTask) (rest : List UTask) :
      c.pc = WTPc.tryClaim → c.task_queue = t :: rest →
      WStep conv c (WLabel.claim t.tid)
        { c with pc := WTPc.processing t, current_task := some t, task_queue := rest,
                 log := c.log ++ [LogEntry.pickedUp t.tid] }
  | claim_empty (c : WTConfig) :
      c.pc = WTPc.tryClaim → c.task_queue = [] →
      WStep conv c WLabel.emptyCaught { c with pc := WTPc.innerCheck }
  | proc_done (c : WTConfig) (t : UTask) :
      c.pc = WTPc.processing t → conv t.tid ≠ ConvOutcome.raises →
      WStep conv c (WLabel.push t.tid)
        { c with pc := WTPc.innerCheck,
                 current_task := none,
                 complete_queue := c.complete_queue ++ [finishedTask conv t],
                 log := c.log ++ [LogEntry.finished t.tid] }
  | proc_raise (c : WTConfig) (t : UTask) :
      c.pc = WTPc.processing t → conv t.tid = ConvOutcome.raises →
      WStep conv c (WLabel.exc t.tid)
        { c with pc := WTPc.innerCheck, log := c.log ++ [LogEntry.excInJob t.tid] }
  | sleep_wake (c : WTConfig) :
      c.pc = WTPc.sleeping →
      WStep conv c WLabel.tick { c with pc := WTPc.outerCheck }
  | env_set_flag (c : WTConfig) :
      c.redundant_flag = false →
      WStep conv c WLabel.setFlag { c with redundant_flag := true }
  | env_enqueue (c : WTConfig) (t : UTask) :
      c.task_queue.length < 1 →
      WStep conv c (WLabel.enqueue t) { c with task_queue := c.task_queue ++ [t] }
  | env_steal (c : WTConfig) (t : UTask) (rest : List UTask) :
      c.task_queue = t :: rest →
      WStep conv c WLabel.steal { c with task_queue := rest }

/-- Reflexive-transitive closure of WStep recording the label trace. -/
inductive WSteps (conv : Nat → ConvOutcome) : WTConfig → List WLabel → WTConfig → Prop
  | refl (c : WTConfig) : WSteps conv c [] c
  | step (c d e : WTConfig) (l : WLabel) (ls : List WLabel) :
      WStep conv c l d → WSteps conv d ls e → WSteps conv c (l :: ls) e

/-- The record WorkerThread.get_status builds (worker.py lines 58-68), minus
the pid field (the OS thread handle, irrelevant to the registry logic). -/
structure WorkerStatus where
  id : String
  name : String
  idle : Bool
  progress : List (String × String)
  current_file : String
deriving DecidableEq, Repr

/-- WorkerThread.getJobProgress (worker.py lines 70-83): the empty dict when
current_task is falsy, otherwise the ten stringified progress fields. -/
def getJobProgress (c : WTConfig) : List (String × String) :=
  match c.current_task with
  | none => []
  | some t =>
    [("duration", t.ffmpeg.duration), ("src_fps", t.ffmpeg.src_fps),
     ("elapsed", t.ffmpeg.elapsed), ("time", t.ffmpeg.time),
     ("percent", t.ffmpeg.percent), ("frame", t.ffmpeg.frame),
     ("fps", t.ffmpeg.fps), ("speed", t.ffmpeg.speed),
     ("bitrate", t.ffmpeg.bitrate), ("file_size", t.ffmpeg.file_size)]

/-- WorkerThread.get_status (worker.py lines 58-68): id, name, the instant's
idle flag, the progress snapshot, and the current task's source basename or
the empty string when current_task is falsy. -/
def get_status (threadID : Nat) (nm : String) (c : WTConfig) : WorkerStatus :=
  { id := toString threadID
    name := nm
    idle := c.idle
    progress := getJobProgress c
    current_file :=
      match c.current_task with
      | none => ""
      | some t => t.source_basename }

/-- Concrete progress snapshot used in the concrete scenarios below. -/
def ffA : FFProgress :=
  { duration := "10", src_fps := "25", elapsed := "3", time := "2", percent := "20",
    frame := "50", fps := "25", speed := "1x", bitrate := "2000k", file_size := "12M" }

/-- A concrete task used in the concrete scenarios below. -/
def tA : UTask :=
  { tid := 7, source_abspath := "/library/a.mkv", source_basename := "a.mkv",
    cache_path := "/cache/a", success := none, ffmpeg := ffA }

/-- A second concrete task. -/
def tB : UTask :=
  { tid := 8, source_abspath := "/library/b.mkv", source_basename := "b.mkv",
    cache_path := "/cache/b", success := none, ffmpeg := ffA }

/-- A conversion engine that succeeds on every task. -/
def convOk : Nat → ConvOutcome := fun _ => ConvOutcome.converted true

/-- A conversion engine that raises on every task. -/
def convRaise : Nat → ConvOutcome := fun _ => ConvOutcome.raises

/-- Unit name used in the concrete scenarios. -/
def worker0name : String := "Worker-0"

/-- Start of the concrete exception scenario: the unit is processing tA
(claimed, current_task set), queue drained, flag clear. -/
def c5start : WTConfig :=
  { pc := WTPc.processing tA, idle := false, current_task := some tA,
    task_queue := [], complete_queue := [], redundant_flag := false, log := [] }

/-- End of the concrete exception scenario: after the exception was caught the
unit looped around (sleep, outer guard, idle reset to True) yet current_task
still holds the task whose processing raised. -/
def c5end : WTConfig :=
  { pc := WTPc.innerCheck, idle := true, current_task := some tA,
    task_queue := [], complete_queue := [], redundant_flag := false,
    log := [LogEntry.excInJob 7] }

/-- Concrete two-unit supervisor state used for the retirement counterexample. -/
def c4state : SupervisorState :=
  ⟨[(0, ⟨0, true, false⟩), (1, ⟨1, true, false⟩)], []⟩

/-- Concrete worker whose two collaborators hold different history logs. -/
def w9 : WorkerModel :=
  { settings := { NUMBER_OF_WORKERS := 1, read_history_log := [tA] }
    job_queue := { read_history_log := [tB], incoming := [] } }

/-- Observation points of the redundant flag plus the post-observation states:
the two loop guards (worker.py lines 107 and 109), the sleep between them, and
the stopped state.  A unit at one of these points with the flag set can only
move toward stopped. -/
def atGuard : WTPc → Prop
  | WTPc.outerCheck => True
  | WTPc.innerCheck => True
  | WTPc.sleeping => True
  | WTPc.stopped => True
  | _ => False

/-- A unit mid-body processing task tA with an otherwise quiescent pool. -/
def c1cfg : WTConfig :=
  ⟨WTPc.processing tA, false, some tA, [], [], false, []⟩

/-- Successor of c1cfg under a successful conversion: task pushed, cleared. -/
def c1cfg2 : WTConfig :=
  ⟨WTPc.innerCheck, false, none, [], [finishedTask convOk tA],
   false, [LogEntry.finished tA.tid]⟩

/-- Successor of c5start after the exception is caught and logged. -/
def c5mid : WTConfig :=
  ⟨WTPc.innerCheck, false, some tA, [], [], false, [LogEntry.excInJob 7]⟩

/-- A unit processing tA while tB waits on the handoff queue. -/
def c6cfg : WTConfig :=
  ⟨WTPc.processing tA, false, some tA, [tB], [], false, []⟩

/-- Successor of c6cfg after an exception in processing tA. -/
def c6cfg2 : WTConfig :=
  ⟨WTPc.innerCheck, false, some tA, [tB], [], false, [LogEntry.excInJob 7]⟩

/-- A unit between the inner guard and get_nowait, with tB available. -/
def ctryB : WTConfig :=
  ⟨WTPc.tryClaim, false, none, [tB], [], false, []⟩

/-- Successor of ctryB after claiming tB. -/
def ctryB2 : WTConfig :=
  ⟨WTPc.processing tB, false, some tB, [], [], false, [LogEntry.pickedUp tB.tid]⟩

theorem natRange_length (a n : Nat) : (natRange a n).length = n := by
  induction n generalizing a with
  | zero => rfl
  | succ n ih => simp [natRange, ih]

theorem mem_natRange {a n j : Nat} : j ∈ natRange a n ↔ a ≤ j ∧ j < a + n := by
  induction n generalizing a with
  | zero => simp [natRange]
  | succ n ih =>
    simp only [natRange, List.mem_cons, ih]
    constructor
    · rintro (rfl | ⟨h1, h2⟩) <;> omega
    · rintro ⟨h1, h2⟩
      by_cases hj : j = a
      · exact Or.inl hj
      · exact Or.inr ⟨by omega, by omega⟩

theorem natRange_append (a m n : Nat) :
    natRange a (m + n) = natRange a m ++ natRange (a + m) n := by
  induction m generalizing a with
  | zero => simp [natRange]
  | succ m ih =>
    have : a + (m + 1) = (a + 1) + m := by omega
    simp only [natRange, Nat.succ_add, this, ih (a + 1), List.cons_append]

theorem natRange_nodup (a n : Nat) : (natRange a n).Nodup := by
  induction n generalizing a with
  | zero => exact List.nodup_nil
  | succ n ih =>
    refine List.Nodup.cons ?_ (ih (a + 1))
    intro hmem
    have := mem_natRange.mp hmem
    omega

theorem natRange_map_congr {a n : Nat} {α : Type} {f g : Nat → α}
    (h : ∀ i, a ≤ i → i < a + n → f i = g i) :
    (natRange a n).map f = (natRange a n).map g := by
  apply List.map_congr_left
  intro i hi
  have := mem_natRange.mp hi
  exact h i this.1 this.2

theorem regFind_append (A B : Registry) (j : Nat) :
    regFind (A ++ B) j =
      match regFind A j with
      | some v => some v
      | none => regFind B j := by
  induction A with
  | nil => simp [regFind]
  | cons p rest ih =>
    obtain ⟨k, v⟩ := p
    by_cases hk : k = j <;> simp [regFind, hk, ih]

theorem regFind_map_natRange (a n j : Nat) (g : Nat → ThreadView) :
    regFind ((natRange a n).map (fun i => (i, g i))) j =
      if a ≤ j ∧ j < a + n then some (g j) else none := by
  induction n generalizing a with
  | zero =>
    simp only [natRange, List.map_nil, regFind]
    split
    · omega
    · rfl
  | succ n ih =>
    simp only [natRange, List.map_cons]
    by_cases hj : a = j
    · subst hj
      have : a ≤ a ∧ a < a + (n + 1) := by omega
      simp [regFind, this]
    · have h2 : (a ≤ j ∧ j < a + (n + 1)) ↔ (a + 1 ≤ j ∧ j < (a + 1) + n) := by omega
      simp [regFind, hj, ih (a + 1), h2]

theorem regFind_isSome_iff_mem (r : Registry) (j : Nat) :
    (regFind r j).isSome ↔ j ∈ regKeys r := by
  induction r with
  | nil => simp [regFind, regKeys]
  | cons p rest ih =>
    obtain ⟨k, v⟩ := p
    by_cases hk : k = j
    · simp [regFind, regKeys, hk]
    · simp only [regFind, if_neg hk, regKeys, List.map_cons, List.mem_cons]
      rw [← regKeys]
      rw [ih]
      constructor
      · exact Or.inr
      · rintro (h | h)
        · exact absurd h.symm hk
        · exact h

theorem regFind_eq_none_iff (r : Registry) (j : Nat) :
    regFind r j = none ↔ j ∉ regKeys r := by
  rw [← regFind_isSome_iff_mem]
  cases regFind r j <;> simp

theorem regErase_append_of_head (A B : Registry) (j : Nat) (v : ThreadView)
    (h : j ∉ regKeys A) : regErase (A ++ (j, v) :: B) j = A ++ B := by
  induction A with
  | nil => simp [regErase]
  | cons p rest ih =>
    obtain ⟨k, w⟩ := p
    simp only [regKeys, List.map_cons, List.mem_cons] at h
    push_neg at h
    have hk : ¬ k = j := fun hkj => h.1 hkj.symm
    simp only [List.cons_append, regErase, if_neg hk, List.append_eq]
    exact congrArg (List.cons (k, w)) (ih (by simpa [regKeys] using h.2))

theorem regSet_append_of_head (A B : Registry) (j : Nat) (v w : ThreadView)
    (h : j ∉ regKeys A) : regSet (A ++ (j, v) :: B) j w = A ++ (j, w) :: B := by
  induction A with
  | nil => simp [regSet]
  | cons p rest ih =>
    obtain ⟨k, u⟩ := p
    simp only [regKeys, List.map_cons, List.mem_cons] at h
    push_neg at h
    have hk : ¬ k = j := fun hkj => h.1 hkj.symm
    simp only [List.cons_append, regSet, if_neg hk, List.append_eq]
    exact congrArg (List.cons (k, u)) (ih (by simpa [regKeys] using h.2))

theorem regSet_of_absent (r : Registry) (j : Nat) (w : ThreadView)
    (h : j ∉ regKeys r) : regSet r j w = r ++ [(j, w)] := by
  induction r with
  | nil => simp [regSet]
  | cons p rest ih =>
    obtain ⟨k, u⟩ := p
    simp only [regKeys, List.map_cons, List.mem_cons] at h
    push_neg at h
    simp only [regSet, List.cons_append]
    rw [if_neg (by exact fun hk => h.1 hk.symm), ih (by simpa [regKeys] using h.2)]

theorem regKeys_regErase (r : Registry) (j : Nat) :
    regKeys (regErase r j) = (regKeys r).erase j := by
  induction r with
  | nil => simp [regErase, regKeys]
  | cons p rest ih =>
    obtain ⟨k, v⟩ := p
    by_cases hk : k = j
    · subst hk
      simp [regErase, regKeys, List.erase_cons_head]
    · simp only [regErase, if_neg hk, regKeys, List.map_cons]
      rw [List.erase_cons_tail]
      · exact congrArg (k :: ·) ih
      · simp [hk]

theorem regKeys_regSet_present (r : Registry) (j : Nat) (w : ThreadView)
    (h : j ∈ regKeys r) : regKeys (regSet r j w) = regKeys r := by
  induction r with
  | nil => simp [regKeys] at h
  | cons p rest ih =>
    obtain ⟨k, v⟩ := p
    by_cases hk : k = j
    · subst hk
      simp [regSet, regKeys]
    · simp only [regKeys, List.map_cons, List.mem_cons] at h
      rcases h with h | h
      · exact absurd h.symm hk
      · simp only [regSet, if_neg hk, regKeys, List.map_cons]
        exact congrArg (List.cons k) (ih h)

theorem removeDeadGo_cons_some (r : Registry) (i : Nat) (is : List Nat) (wt : ThreadView)
    (h : regFind r i = some wt) :
    removeDeadGo r (i :: is) =
      removeDeadGo (if wt.alive = true then r else regErase r i) is := by
  rw [removeDeadGo, h]

theorem removeDeadGo_cons_none (r : Registry) (i : Nat) (is : List Nat)
    (h : regFind r i = none) : removeDeadGo r (i :: is) = none := by
  rw [removeDeadGo, h]

theorem signalGo_cons_some (N : Nat) (st : SupervisorState) (i : Nat) (is : List Nat)
    (wt : ThreadView) (h : regFind st.worker_threads i = some wt) :
    signalGo N st (i :: is) =
      if N ≤ wt.threadID then
        signalGo N ⟨regSet st.worker_threads i { wt with redundant := true },
                    st.remove_list ++ [i]⟩ is
      else signalGo N st is := by
  rw [signalGo, h]

theorem signalGo_cons_none (N : Nat) (st : SupervisorState) (i : Nat) (is : List Nat)
    (h : regFind st.worker_threads i = none) : signalGo N st (i :: is) = none := by
  rw [signalGo, h]

theorem removeDeadGo_append (r : Registry) (is1 is2 : List Nat) :
    removeDeadGo r (is1 ++ is2) =
      match removeDeadGo r is1 with
      | none => none
      | some r1 => removeDeadGo r1 is2 := by
  induction is1 generalizing r with
  | nil => simp [removeDeadGo]
  | cons i is ih =>
    rw [List.cons_append]
    cases hf : regFind r i with
    | none => rw [removeDeadGo_cons_none _ _ _ hf, removeDeadGo_cons_none _ _ _ hf]
    | some wt =>
      rw [removeDeadGo_cons_some _ _ _ _ hf, removeDeadGo_cons_some _ _ _ _ hf, ih]

theorem removeDeadGo_all_alive (r : Registry) (is : List Nat)
    (h : ∀ i ∈ is, ∃ wt, regFind r i = some wt ∧ wt.alive = true) :
    removeDeadGo r is = some r := by
  induction is with
  | nil => rfl
  | cons i is ih =>
    obtain ⟨wt, hfind, halive⟩ := h i (List.mem_cons_self i is)
    rw [removeDeadGo_cons_some _ _ _ _ hfind, if_pos halive]
    exact ih (fun j hj => h j (List.mem_cons_of_mem i hj))

theorem removeDeadGo_dead_suffix (g : Nat → ThreadView) :
    ∀ (p a : Nat) (A : Registry),
    (∀ j, a ≤ j → j < a + p → regFind A j = none) →
    (∀ j, a ≤ j → j < a + p → (g j).alive = false) →
    removeDeadGo (A ++ (natRange a p).map (fun i => (i, g i))) (natRange a p) = some A := by
  intro p
  induction p with
  | zero => intro a A _ _; simp [natRange, removeDeadGo]
  | succ p ih =>
    intro a A hA hdead
    have hAa : regFind A a = none := hA a (Nat.le_refl a) (by omega)
    have hfind :
        regFind (A ++ (a, g a) :: (natRange (a + 1) p).map (fun i => (i, g i))) a =
          some (g a) := by
      rw [regFind_append, hAa]
      simp [regFind]
    rw [show natRange a (p + 1) = a :: natRange (a + 1) p from rfl, List.map_cons]
    rw [removeDeadGo_cons_some _ _ _ _ hfind]
    rw [if_neg (by rw [hdead a (Nat.le_refl a) (by omega)]; simp)]
    rw [regErase_append_of_head A _ a (g a) ((regFind_eq_none_iff A a).mp hAa)]
    exact ih (a + 1) A
      (fun j h1 h2 => hA j (by omega) (by omega))
      (fun j h1 h2 => hdead j (by omega) (by omega))

theorem removeDeadGo_isSome (is : List Nat) :
    ∀ (r : Registry), (regKeys r).Nodup → is.Nodup →
    (∀ i ∈ is, i ∈ regKeys r) → (removeDeadGo r is).isSome := by
  induction is with
  | nil => intro r _ _ _; simp [removeDeadGo]
  | cons i is ih =>
    intro r hnodup hisnodup hmem
    have hi : i ∈ regKeys r := hmem i (List.mem_cons_self i is)
    obtain ⟨wt, hwt⟩ :=
      Option.isSome_iff_exists.mp ((regFind_isSome_iff_mem r i).mpr hi)
    rw [removeDeadGo_cons_some _ _ _ _ hwt]
    by_cases halive : wt.alive = true
    · rw [if_pos halive]
      exact ih r hnodup (List.Nodup.of_cons hisnodup)
        (fun j hj => hmem j (List.mem_cons_of_mem i hj))
    · rw [if_neg halive]
      refine ih (regErase r i) ?_ (List.Nodup.of_cons hisnodup) ?_
      · rw [regKeys_regErase]
        exact List.Nodup.erase i hnodup
      · intro j hj
        rw [regKeys_regErase]
        have hji : j ≠ i := by
          rintro rfl
          exact (List.nodup_cons.mp hisnodup).1 hj
        exact (List.mem_erase_of_ne hji).mpr (hmem j (List.mem_cons_of_mem i hj))

theorem spawnGo_append (r : Registry) (is1 is2 : List Nat) :
    spawnGo r (is1 ++ is2) = spawnGo (spawnGo r is1) is2 := by
  induction is1 generalizing r with
  | nil => simp [spawnGo]
  | cons i is ih => rw [List.cons_append, spawnGo, spawnGo]; exact ih _

theorem spawnGo_all_present (r : Registry) (is : List Nat)
    (h : ∀ i ∈ is, (regFind r i).isSome) : spawnGo r is = r := by
  induction is with
  | nil => rfl
  | cons i is ih =>
    rw [spawnGo, if_pos (h i (List.mem_cons_self i is))]
    exact ih (fun j hj => h j (List.mem_cons_of_mem i hj))

theorem spawnGo_all_missing :
    ∀ (p a : Nat) (A : Registry),
    (∀ j, a ≤ j → j < a + p → regFind A j = none) →
    spawnGo A (natRange a p) = A ++ (natRange a p).map (fun i => (i, freshThread i)) := by
  intro p
  induction p with
  | zero => intro a A _; simp [natRange, spawnGo]
  | succ p ih =>
    intro a A hA
    have hAa : regFind A a = none := hA a (Nat.le_refl a) (by omega)
    rw [show natRange a (p + 1) = a :: natRange (a + 1) p from rfl]
    rw [spawnGo, if_neg (by rw [hAa]; simp)]
    rw [regSet_of_absent A a (freshThread a) ((regFind_eq_none_iff A a).mp hAa)]
    rw [ih (a + 1) (A ++ [(a, freshThread a)]) ?_]
    · simp [natRange]
    · intro j h1 h2
      rw [regFind_append, hA j (by omega) (by omega)]
      simp only [regFind]
      rw [if_neg (by omega)]

theorem signalGo_append (N : Nat) (st : SupervisorState) (is1 is2 : List Nat) :
    signalGo N st (is1 ++ is2) =
      match signalGo N st is1 with
      | none => none
      | some st1 => signalGo N st1 is2 := by
  induction is1 generalizing st with
  | nil => simp [signalGo]
  | cons i is ih =>
    rw [List.cons_append]
    cases hf : regFind st.worker_threads i with
    | none => rw [signalGo_cons_none _ _ _ _ hf, signalGo_cons_none _ _ _ _ hf]
    | some wt =>
      rw [signalGo_cons_some _ _ _ _ _ hf, signalGo_cons_some _ _ _ _ _ hf]
      by_cases hN : N ≤ wt.threadID
      · rw [if_pos hN, if_pos hN, ih]
      · rw [if_neg hN, if_neg hN, ih]

theorem signalGo_skip (N : Nat) (st : SupervisorState) (is : List Nat)
    (h : ∀ i ∈ is, ∃ wt, regFind st.worker_threads i = some wt ∧ wt.threadID < N) :
    signalGo N st is = some st := by
  induction is with
  | nil => rfl
  | cons i is ih =>
    obtain ⟨wt, hfind, hlt⟩ := h i (List.mem_cons_self i is)
    rw [signalGo_cons_some _ _ _ _ _ hfind, if_neg (by omega)]
    exact ih (fun j hj => h j (List.mem_cons_of_mem i hj))

theorem signalGo_suffix (N : Nat) (g : Nat → ThreadView)
    (hid : ∀ i, (g i).threadID = i) :
    ∀ (p a : Nat) (A : Registry) (rl : List Nat),
    N ≤ a →
    (∀ j, a ≤ j → j < a + p → regFind A j = none) →
    signalGo N ⟨A ++ (natRange a p).map (fun i => (i, g i)), rl⟩ (natRange a p) =
      some ⟨A ++ (natRange a p).map (fun i => (i, retireEntry (g i))), rl ++ natRange a p⟩ := by
  intro p
  induction p with
  | zero => intro a A rl _ _; simp [natRange, signalGo]
  | succ p ih =>
    intro a A rl hNa hA
    have hAa : regFind A a = none := hA a (Nat.le_refl a) (by omega)
    have hfind :
        regFind (A ++ (a, g a) :: (natRange (a + 1) p).map (fun i => (i, g i))) a =
          some (g a) := by
      rw [regFind_append, hAa]
      simp [regFind]
    rw [show natRange a (p + 1) = a :: natRange (a + 1) p from rfl, List.map_cons]
    rw [signalGo_cons_some _ _ _ _ _ hfind]
    rw [if_pos (by rw [hid a]; omega)]
    have hset :
        regSet (A ++ (a, g a) :: (natRange (a + 1) p).map (fun i => (i, g i))) a
            (⟨(g a).threadID, (g a).alive, true⟩ : ThreadView) =
          (A ++ [(a, (⟨(g a).threadID, (g a).alive, true⟩ : ThreadView))]) ++
            (natRange (a + 1) p).map (fun i => (i, g i)) := by
      rw [regSet_append_of_head A _ a (g a) _ ((regFind_eq_none_iff A a).mp hAa)]
      simp
    rw [show
        (⟨regSet (A ++ (a, g a) :: (natRange (a + 1) p).map (fun i => (i, g i))) a
            (⟨(g a).threadID, (g a).alive, true⟩ : ThreadView), rl ++ [a]⟩ : SupervisorState) =
        ⟨(A ++ [(a, (⟨(g a).threadID, (g a).alive, true⟩ : ThreadView))]) ++
            (natRange (a + 1) p).map (fun i => (i, g i)),
          rl ++ [a]⟩ from congrArg (fun x => SupervisorState.mk x (rl ++ [a])) hset]
    rw [ih (a + 1) (A ++ [(a, (⟨(g a).threadID, (g a).alive, true⟩ : ThreadView))])
          (rl ++ [a]) (by omega) ?_]
    · simp [natRange, retireEntry]
    · intro j h1 h2
      rw [regFind_append, hA j (by omega) (by omega)]
      simp only [regFind]
      rw [if_neg (by omega)]

theorem signalGo_isSome (N : Nat) (is : List Nat) :
    ∀ (st : SupervisorState), (∀ i ∈ is, i ∈ regKeys st.worker_threads) →
    (signalGo N st is).isSome := by
  induction is with
  | nil => intro st _; simp [signalGo]
  | cons i is ih =>
    intro st hmem
    have hi : i ∈ regKeys st.worker_threads := hmem i (List.mem_cons_self i is)
    obtain ⟨wt, hwt⟩ :=
      Option.isSome_iff_exists.mp ((regFind_isSome_iff_mem _ i).mpr hi)
    rw [signalGo_cons_some _ _ _ _ _ hwt]
    by_cases hN : N ≤ wt.threadID
    · rw [if_pos hN]
      refine ih _ ?_
      intro j hj
      have : regKeys (regSet st.worker_threads i { wt with redundant := true }) =
          regKeys st.worker_threads := regKeys_regSet_present _ i _ hi
      rw [show (⟨regSet st.worker_threads i { wt with redundant := true },
            st.remove_list ++ [i]⟩ : SupervisorState).worker_threads =
          regSet st.worker_threads i { wt with redundant := true } from rfl, this]
      exact hmem j (List.mem_cons_of_mem i hj)
    · rw [if_neg hN]
      exact ih st (fun j hj => hmem j (List.mem_cons_of_mem i hj))

theorem natRange_zero_split (m n : Nat) (h : m ≤ n) :
    natRange 0 n = natRange 0 m ++ natRange m (n - m) := by
  have h2 := natRange_append 0 m (n - m)
  rw [show m + (n - m) = n by omega] at h2
  rw [Nat.zero_add] at h2
  exact h2

theorem denseRegistry_length (k : Nat) (f : Nat → ThreadView) :
    (denseRegistry k f).length = k := by
  unfold denseRegistry pyRange
  rw [List.length_map, natRange_length]

theorem regFind_denseRegistry (k j : Nat) (f : Nat → ThreadView) :
    regFind (denseRegistry k f) j = if j < k then some (f j) else none := by
  unfold denseRegistry pyRange
  rw [regFind_map_natRange]
  by_cases h : j < k
  · rw [if_pos (by omega : 0 ≤ j ∧ j < 0 + k), if_pos h]
  · rw [if_neg (by omega : ¬(0 ≤ j ∧ j < 0 + k)), if_neg h]

theorem removeDeadGo_append_bind (r : Registry) (is1 is2 : List Nat) :
    removeDeadGo r (is1 ++ is2) =
      (removeDeadGo r is1).bind (fun r1 => removeDeadGo r1 is2) := by
  rw [removeDeadGo_append]
  cases removeDeadGo r is1 <;> rfl

theorem signalGo_append_bind (N : Nat) (st : SupervisorState) (is1 is2 : List Nat) :
    signalGo N st (is1 ++ is2) =
      (signalGo N st is1).bind (fun st1 => signalGo N st1 is2) := by
  rw [signalGo_append]
  cases signalGo N st is1 <;> rfl

theorem killRedundant_denseRegistry (m : Nat) (g : Nat → ThreadView) :
    killRedundant (denseRegistry m g) =
      denseRegistry m
        (fun i => if (g i).redundant then { g i with alive := false } else g i) := by
  unfold killRedundant denseRegistry
  rw [List.map_map]
  rfl


theorem initWorkerThreads_unfold (N : Nat) (r : Registry) (rl : List Nat) (r1 : Registry)
    (h : removeDead r = some r1) :
    initWorkerThreads N ⟨r, rl⟩ = signalRedundant N ⟨spawnMissing N r1, rl⟩ := by
  unfold initWorkerThreads
  rw [show (⟨r, rl⟩ : SupervisorState).worker_threads = r from rfl, h]

theorem signalRedundant_over (N : Nat) (r : Registry) (rl : List Nat) (h : N < r.length) :
    signalRedundant N ⟨r, rl⟩ = signalGo N ⟨r, rl⟩ (pyRange r.length) := by
  unfold signalRedundant
  rw [show (⟨r, rl⟩ : SupervisorState).worker_threads = r from rfl, if_pos h]

theorem signalRedundant_le (N : Nat) (r : Registry) (rl : List Nat) (h : ¬ N < r.length) :
    signalRedundant N ⟨r, rl⟩ = some ⟨r, rl⟩ := by
  unfold signalRedundant
  rw [show (⟨r, rl⟩ : SupervisorState).worker_threads = r from rfl, if_neg h]

/-- Characterization of one initWorkerThreads call on a dense, fully alive
registry with ids equal to keys: dead-entry removal keeps everything; if the
pool is under the target the missing ids of the range are spawned at the tail;
if it is over the target every entry with id at least N is marked redundant
(regardless of whether it was already marked) and its index is appended to
remove_list. -/
theorem initWorkerThreads_dense (k N : Nat) (f : Nat → ThreadView) (rl : List Nat)
    (hid : ∀ i, (f i).threadID = i) (halive : ∀ i, (f i).alive = true) :
    initWorkerThreads N ⟨denseRegistry k f, rl⟩ =
      some ⟨denseRegistry (max k N)
              (fun i => if i < k then (if N ≤ i then retireEntry (f i) else f i)
                        else freshThread i),
            rl ++ natRange N (k - N)⟩ := by
  have hlen : (denseRegistry k f).length = k := denseRegistry_length k f
  have hremove : removeDead (denseRegistry k f) = some (denseRegistry k f) := by
    unfold removeDead pyRange
    rw [hlen]
    apply removeDeadGo_all_alive
    intro i hi
    have hik : i < k := by have := mem_natRange.mp hi; omega
    exact ⟨f i, by rw [regFind_denseRegistry, if_pos hik], halive i⟩
  rw [initWorkerThreads_unfold N (denseRegistry k f) rl (denseRegistry k f) hremove]
  by_cases h1 : k < N
  · -- under the limit: spawn the missing ids, signal nothing
    have hmax : max k N = N := Nat.max_eq_right (Nat.le_of_lt h1)
    have hpres : ∀ i ∈ natRange 0 k, (regFind (denseRegistry k f) i).isSome := by
      intro i hi
      have hik : i < k := by have := mem_natRange.mp hi; omega
      rw [regFind_denseRegistry, if_pos hik]
      rfl
    have hmiss : ∀ j, k ≤ j → j < k + (N - k) → regFind (denseRegistry k f) j = none := by
      intro j hj1 _
      rw [regFind_denseRegistry, if_neg (by omega)]
    have hspawn : spawnMissing N (denseRegistry k f) =
        denseRegistry k f ++ (natRange k (N - k)).map (fun i => (i, freshThread i)) := by
      unfold spawnMissing pyRange
      rw [hlen, if_pos h1, natRange_zero_split k N (by omega), spawnGo_append,
        spawnGo_all_present (denseRegistry k f) (natRange 0 k) hpres]
      exact spawnGo_all_missing (N - k) k (denseRegistry k f) hmiss
    rw [hspawn]
    have hlen2 : (denseRegistry k f ++
        (natRange k (N - k)).map (fun i => (i, freshThread i))).length = N := by
      rw [List.length_append, hlen, List.length_map, natRange_length]
      omega
    rw [signalRedundant_le N _ rl (by rw [hlen2]; omega)]
    have hreg : denseRegistry k f ++ (natRange k (N - k)).map (fun i => (i, freshThread i)) =
        denseRegistry (max k N)
          (fun i => if i < k then (if N ≤ i then retireEntry (f i) else f i)
                    else freshThread i) := by
      rw [hmax]
      unfold denseRegistry pyRange
      rw [natRange_zero_split k N (by omega), List.map_append]
      congr 1
      · apply natRange_map_congr
        intro i _ hi2
        have e1 : i < k := by omega
        have e2 : ¬ N ≤ i := by omega
        simp [e1, e2]
      · apply natRange_map_congr
        intro i hi1 _
        have e1 : ¬ i < k := by omega
        simp [e1]
    rw [hreg, show k - N = 0 by omega,
      show natRange N 0 = ([] : List Nat) from rfl, List.append_nil]
  · by_cases h2 : N < k
    · -- over the limit: signal every id at least N
      have hmax : max k N = k := Nat.max_eq_left (by omega)
      have hspawn : spawnMissing N (denseRegistry k f) = denseRegistry k f := by
        unfold spawnMissing
        rw [hlen, if_neg (by omega)]
      rw [hspawn]
      rw [signalRedundant_over N _ rl (by rw [hlen]; omega)]
      rw [hlen]
      have hsplit : denseRegistry k f =
          (natRange 0 N).map (fun i => (i, f i)) ++
            (natRange N (k - N)).map (fun i => (i, f i)) := by
        unfold denseRegistry pyRange
        rw [natRange_zero_split N k (by omega), List.map_append]
      have hskip : signalGo N ⟨denseRegistry k f, rl⟩ (natRange 0 N) =
          some ⟨denseRegistry k f, rl⟩ := by
        apply signalGo_skip
        intro i hi
        have hiN : i < N := by have := mem_natRange.mp hi; omega
        refine ⟨f i, ?_, ?_⟩
        · rw [show (⟨denseRegistry k f, rl⟩ : SupervisorState).worker_threads =
              denseRegistry k f from rfl]
          rw [regFind_denseRegistry, if_pos (by omega)]
        · rw [hid i]; omega
      have hsuffix : signalGo N ⟨denseRegistry k f, rl⟩ (natRange N (k - N)) =
          some ⟨(natRange 0 N).map (fun i => (i, f i)) ++
                  (natRange N (k - N)).map (fun i => (i, retireEntry (f i))),
                rl ++ natRange N (k - N)⟩ := by
        rw [show (⟨denseRegistry k f, rl⟩ : SupervisorState) =
            ⟨(natRange 0 N).map (fun i => (i, f i)) ++
              (natRange N (k - N)).map (fun i => (i, f i)), rl⟩ from by rw [← hsplit]]
        apply signalGo_suffix N f hid (k - N) N _ rl (Nat.le_refl N)
        intro j hj1 hj2
        rw [regFind_map_natRange, if_neg (by omega)]
      rw [show pyRange k = natRange 0 N ++ natRange N (k - N) from
          natRange_zero_split N k (by omega)]
      rw [signalGo_append_bind, hskip, Option.some_bind, hsuffix]
      have hreg : (natRange 0 N).map (fun i => (i, f i)) ++
            (natRange N (k - N)).map (fun i => (i, retireEntry (f i))) =
          denseRegistry (max k N)
            (fun i => if i < k then (if N ≤ i then retireEntry (f i) else f i)
                      else freshThread i) := by
        rw [hmax]
        unfold denseRegistry pyRange
        rw [natRange_zero_split N k (by omega), List.map_append]
        congr 1
        · apply natRange_map_congr
          intro i _ hi2
          have e1 : i < k := by omega
          have e2 : ¬ N ≤ i := by omega
          simp [e1, e2]
        · apply natRange_map_congr
          intro i hi1 hi2
          have e1 : i < k := by omega
          have e2 : N ≤ i := by omega
          simp [e1, e2]
      rw [hreg]
    · -- exactly at the limit: nothing to do
      have hspawn : spawnMissing N (denseRegistry k f) = denseRegistry k f := by
        unfold spawnMissing
        rw [hlen, if_neg (by omega)]
      rw [hspawn]
      rw [signalRedundant_le N _ rl (by rw [hlen]; omega)]
      have hreg : denseRegistry k f =
          denseRegistry (max k N)
            (fun i => if i < k then (if N ≤ i then retireEntry (f i) else f i)
                      else freshThread i) := by
        rw [show max k N = k by omega]
        unfold denseRegistry pyRange
        apply natRange_map_congr
        intro i _ hi2
        have e1 : i < k := by omega
        have e2 : ¬ N ≤ i := by omega
        simp [e1, e2]
      rw [← hreg, show k - N = 0 by omega,
        show natRange N 0 = ([] : List Nat) from rfl, List.append_nil]

theorem initWorkerThreads_unfold_state (N : Nat) (st : SupervisorState) (r1 : Registry)
    (h : removeDead st.worker_threads = some r1) :
    initWorkerThreads N st = signalRedundant N ⟨spawnMissing N r1, st.remove_list⟩ := by
  unfold initWorkerThreads
  rw [h]

theorem mem_denseRegistry {m : Nat} {F : Nat → ThreadView} {p : Nat × ThreadView}
    (hp : p ∈ denseRegistry m F) : ∃ i, i < m ∧ p = (i, F i) := by
  unfold denseRegistry pyRange at hp
  obtain ⟨i, hi, hie⟩ := List.mem_map.mp hp
  exact ⟨i, by have := mem_natRange.mp hi; omega, hie.symm⟩

/-- Characterization of one initWorkerThreads call on a dense registry whose
first N entries are alive and whose entries from N on are dead: the removal
loop deletes exactly the dead suffix and the call then changes nothing. -/
theorem initWorkerThreads_dense_removal (m N : Nat) (g : Nat → ThreadView) (rl : List Nat)
    (hm : N ≤ m)
    (halive : ∀ i, i < N → (g i).alive = true)
    (hdead : ∀ i, N ≤ i → i < m → (g i).alive = false) :
    initWorkerThreads N ⟨denseRegistry m g, rl⟩ = some ⟨denseRegistry N g, rl⟩ := by
  have hlen : (denseRegistry m g).length = m := denseRegistry_length m g
  have hremove : removeDead (denseRegistry m g) = some (denseRegistry N g) := by
    unfold removeDead pyRange
    rw [hlen, natRange_zero_split N m hm, removeDeadGo_append_bind]
    rw [removeDeadGo_all_alive _ _ (fun i hi => by
      have hiN : i < N := by have := mem_natRange.mp hi; omega
      exact ⟨g i, by rw [regFind_denseRegistry, if_pos (by omega)], halive i hiN⟩)]
    rw [Option.some_bind]
    have hsplit : denseRegistry m g =
        (natRange 0 N).map (fun i => (i, g i)) ++
          (natRange N (m - N)).map (fun i => (i, g i)) := by
      unfold denseRegistry pyRange
      rw [natRange_zero_split N m hm, List.map_append]
    rw [hsplit]
    rw [removeDeadGo_dead_suffix g (m - N) N _
      (fun j hj1 hj2 => by rw [regFind_map_natRange, if_neg (by omega)])
      (fun j hj1 hj2 => hdead j hj1 (by omega))]
    rfl
  rw [initWorkerThreads_unfold N (denseRegistry m g) rl (denseRegistry N g) hremove]
  have hlenN : (denseRegistry N g).length = N := denseRegistry_length N g
  have hspawn : spawnMissing N (denseRegistry N g) = denseRegistry N g := by
    unfold spawnMissing
    rw [hlenN, if_neg (by omega)]
  rw [hspawn, signalRedundant_le N _ rl (by rw [hlenN]; omega)]

/-- C3: starting from a stabilized dense pool of k live, unsignaled units with
ids 0..k-1 and target N, one reconciliation call followed by the death of the
signaled units and a second reconciliation call leaves exactly N live units
with ids exactly 0..N-1; when shrinking, precisely the units with id at least
N are signaled (the highest ids), low ids keep their original entries, and ids
at least N are present only between the signaling call and the next call
(transiently, while they retire). -/
theorem C3_pool_convergence (k N : Nat) (f : Nat → ThreadView) (rl : List Nat)
    (hid : ∀ i, (f i).threadID = i)
    (halive : ∀ i, (f i).alive = true)
    (hred : ∀ i, (f i).redundant = false) :
    ∃ s1 s2 : SupervisorState,
      initWorkerThreads N ⟨denseRegistry k f, rl⟩ = some s1 ∧
      s1.worker_threads =
        denseRegistry (max k N)
          (fun i => if i < k then (if N ≤ i then retireEntry (f i) else f i)
                    else freshThread i) ∧
      s1.remove_list = rl ++ natRange N (k - N) ∧
      (∀ p ∈ s1.worker_threads, p.2.redundant = true ↔ (N ≤ p.1 ∧ p.1 < k)) ∧
      initWorkerThreads N ⟨killRedundant s1.worker_threads, s1.remove_list⟩ = some s2 ∧
      s2.worker_threads = denseRegistry N (fun i => if i < k then f i else freshThread i) ∧
      s2.remove_list = rl ++ natRange N (k - N) ∧
      s2.worker_threads.length = N ∧
      (∀ p ∈ s2.worker_threads,
        p.1 = p.2.threadID ∧ p.2.alive = true ∧ p.2.redundant = false) := by
  refine ⟨⟨denseRegistry (max k N)
            (fun i => if i < k then (if N ≤ i then retireEntry (f i) else f i)
                      else freshThread i), rl ++ natRange N (k - N)⟩,
          ⟨denseRegistry N (fun i => if i < k then f i else freshThread i),
            rl ++ natRange N (k - N)⟩,
          initWorkerThreads_dense k N f rl hid halive, rfl, rfl, ?_, ?_, rfl, rfl,
          denseRegistry_length N _, ?_⟩
  · -- the signaled units are exactly those with id at least N (and below k)
    intro p hp
    obtain ⟨i, hi, rfl⟩ := mem_denseRegistry hp
    by_cases e1 : i < k
    · by_cases e2 : N ≤ i
      · simp [e1, e2, retireEntry]
      · simp [e1, e2, hred i]
    · simp [e1, freshThread]
  · -- second call after the signaled units have died
    rw [show (⟨denseRegistry (max k N)
          (fun i => if i < k then (if N ≤ i then retireEntry (f i) else f i)
                    else freshThread i), rl ++ natRange N (k - N)⟩ :
        SupervisorState).worker_threads =
        denseRegistry (max k N)
          (fun i => if i < k then (if N ≤ i then retireEntry (f i) else f i)
                    else freshThread i) from rfl]
    rw [show (⟨denseRegistry (max k N)
          (fun i => if i < k then (if N ≤ i then retireEntry (f i) else f i)
                    else freshThread i), rl ++ natRange N (k - N)⟩ :
        SupervisorState).remove_list = rl ++ natRange N (k - N) from rfl]
    rw [killRedundant_denseRegistry]
    refine Eq.trans
      (initWorkerThreads_dense_removal (max k N) N _ (rl ++ natRange N (k - N))
        (Nat.le_max_right k N) ?_ ?_) ?_
    · intro i hiN
      by_cases e1 : i < k
      · have e2 : ¬ N ≤ i := by omega
        simp [e1, e2, hred i, halive i]
      · simp [e1, freshThread]
    · intro i h1 h2
      have e1 : i < k := by omega
      have e2 : N ≤ i := by omega
      simp [e1, e2, retireEntry]
    · have hfin : denseRegistry N
          (fun i =>
            if ((fun i => if i < k then (if N ≤ i then retireEntry (f i) else f i)
                          else freshThread i) i).redundant then
              { (fun i => if i < k then (if N ≤ i then retireEntry (f i) else f i)
                          else freshThread i) i with alive := false }
            else (fun i => if i < k then (if N ≤ i then retireEntry (f i) else f i)
                          else freshThread i) i) =
          denseRegistry N (fun i => if i < k then f i else freshThread i) := by
        unfold denseRegistry pyRange
        apply natRange_map_congr
        intro i _ hi2
        by_cases e1 : i < k
        · have e2 : ¬ N ≤ i := by omega
          simp [e1, e2, hred i]
        · simp [e1, freshThread]
      rw [hfin]
  · intro p hp
    obtain ⟨i, hi, rfl⟩ := mem_denseRegistry hp
    by_cases e1 : i < k
    · simp [e1, hid i, halive i, hred i]
    · simp [e1, freshThread]

/-- Witness for C3 at k = 3, N = 1: a stabilized pool of three fresh units
shrunk to target one. -/
theorem C3_pool_convergence_witness :
    ∃ s1 s2 : SupervisorState,
      initWorkerThreads 1 ⟨denseRegistry 3 (fun i => ⟨i, true, false⟩), []⟩ = some s1 ∧
      s1.worker_threads =
        denseRegistry (max 3 1)
          (fun i => if i < 3 then
              (if 1 ≤ i then retireEntry ((fun i => (⟨i, true, false⟩ : ThreadView)) i)
               else (fun i => (⟨i, true, false⟩ : ThreadView)) i)
            else freshThread i) ∧
      s1.remove_list = [] ++ natRange 1 (3 - 1) ∧
      (∀ p ∈ s1.worker_threads, p.2.redundant = true ↔ (1 ≤ p.1 ∧ p.1 < 3)) ∧
      initWorkerThreads 1 ⟨killRedundant s1.worker_threads, s1.remove_list⟩ = some s2 ∧
      s2.worker_threads =
        denseRegistry 1
          (fun i => if i < 3 then (fun i => (⟨i, true, false⟩ : ThreadView)) i
                    else freshThread i) ∧
      s2.remove_list = [] ++ natRange 1 (3 - 1) ∧
      s2.worker_threads.length = 1 ∧
      (∀ p ∈ s2.worker_threads,
        p.1 = p.2.threadID ∧ p.2.alive = true ∧ p.2.redundant = false) :=
  C3_pool_convergence 3 1 (fun i => ⟨i, true, false⟩) []
    (fun _ => rfl) (fun _ => rfl) (fun _ => rfl)

/-- C4 amended: while the live count exceeds the target, every call of
initWorkerThreads sets the redundant flag of every unit whose id is at least
the target (a no-op on a flag already set) and appends its registry index to
remove_list again, with no already-signaled check: remove_list accumulates
duplicates across calls.  The hypotheses do not require the units to be
unsignaled, so the statement covers repeated calls. -/
theorem C4_retirement_signaling (k N : Nat) (f : Nat → ThreadView) (rl : List Nat)
    (hN : N < k)
    (hid : ∀ i, (f i).threadID = i)
    (halive : ∀ i, (f i).alive = true) :
    initWorkerThreads N ⟨denseRegistry k f, rl⟩ =
      some ⟨denseRegistry k (fun i => if N ≤ i then retireEntry (f i) else f i),
            rl ++ natRange N (k - N)⟩ := by
  rw [initWorkerThreads_dense k N f rl hid halive]
  have hreg : denseRegistry (max k N)
      (fun i => if i < k then (if N ≤ i then retireEntry (f i) else f i)
                else freshThread i) =
      denseRegistry k (fun i => if N ≤ i then retireEntry (f i) else f i) := by
    rw [Nat.max_eq_left (by omega)]
    unfold denseRegistry pyRange
    apply natRange_map_congr
    intro i _ hi2
    have e1 : i < k := by omega
    simp [e1]
  rw [hreg]

/-- Witness for the amended C4 at k = 2, N = 1, with unit 1 already signaled:
it is signaled again and its index is recorded again. -/
theorem C4_retirement_signaling_witness :
    initWorkerThreads 1 ⟨denseRegistry 2 (fun i => ⟨i, true, i = 1⟩), [1]⟩ =
      some ⟨denseRegistry 2
              (fun i => if 1 ≤ i then retireEntry ((fun i => (⟨i, true, i = 1⟩ : ThreadView)) i)
                        else (fun i => (⟨i, true, i = 1⟩ : ThreadView)) i),
            [1] ++ natRange 1 (2 - 1)⟩ :=
  C4_retirement_signaling 2 1 (fun i => ⟨i, true, i = 1⟩) [1]
    (by omega) (fun _ => rfl) (fun _ => rfl)

/-- Counterexample to C4 as stated: with target 1 and two alive units, two
consecutive initWorkerThreads calls append index 1 to remove_list twice; the
already-signaled unit is not skipped, so remove_list ends as the duplicate
list 1, 1 rather than the single record the claim requires. -/
theorem C4_counterexample :
    (initWorkerThreads 1 c4state).bind (fun s1 => initWorkerThreads 1 s1) =
      some ⟨[(0, ⟨0, true, false⟩), (1, ⟨1, true, true⟩)], [1, 1]⟩ ∧
    ¬ ([1, 1] : List Nat) = [1] := by
  constructor
  · decide
  · decide

/-- C10: initWorkerThreads indexes the registry dict by the positions
range(len) in both of its loops; whenever the key set is exactly 0..len-1 at
entry to the removal loop and again at entry to the signaling loop (after
removal and spawning), every lookup succeeds and the call returns without a
KeyError.  The second conjunct shows totality genuinely needs density: on the
non-dense key set 0, 2 the removal loop's lookup of position 1 raises. -/
theorem C10_positional_indexing (N : Nat) (st : SupervisorState)
    (h1 : KeysDense st.worker_threads)
    (h2 : ∀ r1, removeDead st.worker_threads = some r1 →
            KeysDense (spawnMissing N r1)) :
    (initWorkerThreads N st).isSome ∧
    initWorkerThreads 1 ⟨[(0, freshThread 0), (2, freshThread 2)], []⟩ = none := by
  constructor
  · have hrem : (removeDead st.worker_threads).isSome := by
      unfold removeDead pyRange
      exact removeDeadGo_isSome (natRange 0 st.worker_threads.length) st.worker_threads
        h1.1 (natRange_nodup 0 _)
        (fun i hi => h1.2 i (by have := mem_natRange.mp hi; omega))
    obtain ⟨r1, hr1⟩ := Option.isSome_iff_exists.mp hrem
    have hd2 := h2 r1 hr1
    rw [initWorkerThreads_unfold_state N st r1 hr1]
    by_cases hN : N < (spawnMissing N r1).length
    · rw [signalRedundant_over N _ _ hN]
      apply signalGo_isSome
      intro i hi
      unfold pyRange at hi
      have hb := mem_natRange.mp hi
      exact hd2.2 i (by omega)
    · rw [signalRedundant_le N _ _ hN]
      rfl
  · decide

/-- Witness for C10 on a concrete dense one-unit registry with target 1. -/
theorem C10_positional_indexing_witness :
    (initWorkerThreads 1 ⟨[(0, freshThread 0)], []⟩).isSome ∧
    initWorkerThreads 1 ⟨[(0, freshThread 0), (2, freshThread 2)], []⟩ = none :=
  C10_positional_indexing 1 ⟨[(0, freshThread 0)], []⟩ (by unfold KeysDense; decide)
    (fun r1 h => by
      have h2 : removeDead [(0, freshThread 0)] = some r1 := h
      rw [show removeDead [(0, freshThread 0)] = some [(0, freshThread 0)] from rfl] at h2
      cases Option.some.inj h2
      unfold KeysDense
      decide)

theorem applyQOp_bound (q : PyQueue) (op : QOp) (hm : q.maxsize = 1)
    (hl : q.items.length ≤ 1) :
    (applyQOp q op).maxsize = 1 ∧ (applyQOp q op).items.length ≤ 1 := by
  cases op with
  | put t =>
    show (q.put t).maxsize = 1 ∧ (q.put t).items.length ≤ 1
    unfold PyQueue.put
    by_cases h : q.maxsize = 0 ∨ q.items.length < q.maxsize
    · rw [if_pos h]
      refine ⟨hm, ?_⟩
      have : q.items.length < 1 := by
        rcases h with h | h
        · omega
        · omega
      simp only [List.length_append, List.length_cons, List.length_nil]
      omega
    · rw [if_neg h]
      exact ⟨hm, hl⟩
  | getNowait =>
    show (q.get_nowait).2.maxsize = 1 ∧ (q.get_nowait).2.items.length ≤ 1
    unfold PyQueue.get_nowait
    cases hq : q.items with
    | nil => exact ⟨hm, hl⟩
    | cons t rest =>
      refine ⟨hm, ?_⟩
      have : (t :: rest).length ≤ 1 := by rw [← hq]; exact hl
      simp only [List.length_cons] at this
      show rest.length ≤ 1
      omega

theorem applyQOps_bound (ops : List QOp) :
    ∀ q : PyQueue, q.maxsize = 1 → q.items.length ≤ 1 →
    (applyQOps q ops).items.length ≤ 1 := by
  induction ops with
  | nil => intro q _ hl; exact hl
  | cons op ops ih =>
    intro q hm hl
    obtain ⟨h1, h2⟩ := applyQOp_bound q op hm hl
    exact ih _ h1 h2

theorem dispatchLoop_bound (inc : List UTask) :
    ∀ q : PyQueue, q.maxsize = 1 → q.items.length ≤ 1 →
    ((dispatchLoop q inc).1.items.length ≤ 1) := by
  induction inc with
  | nil => intro q _ hl; exact hl
  | cons t rest ih =>
    intro q hm hl
    by_cases hf : q.full = true
    · rw [dispatchLoop, if_pos hf]
      exact hl
    · rw [dispatchLoop, if_neg hf]
      obtain ⟨h1, h2⟩ := applyQOp_bound q (QOp.put t) hm hl
      exact ih _ h1 h2

/-- C2: the handoff queue is constructed with maxsize 1 (worker.py line 140);
starting from that queue, any interleaved history of producer puts and
consumer nonblocking gets leaves at most one task in it, and the supervisor's
dispatch loop, which checks full() before each put, also preserves the bound
from any queue state of capacity one holding at most one task. -/
theorem C2_handoff_capacity :
    task_queue_init.maxsize = 1 ∧
    (∀ ops : List QOp, (applyQOps task_queue_init ops).items.length ≤ 1) ∧
    (∀ (inc : List UTask) (q : PyQueue), q.maxsize = 1 → q.items.length ≤ 1 →
      ((dispatchLoop q inc).1.items.length ≤ 1)) :=
  ⟨rfl,
   fun ops => applyQOps_bound ops task_queue_init rfl (by decide),
   fun inc q hm hl => dispatchLoop_bound inc q hm hl⟩

/-- Witness for C2: a put history that tries to overfill, and a dispatch of
one more task onto an occupied single-slot queue. -/
theorem C2_handoff_capacity_witness :
    (applyQOps task_queue_init [QOp.put tA, QOp.put tB, QOp.getNowait]).items.length ≤ 1 ∧
    ((dispatchLoop { maxsize := 1, items := [tA] } [tB]).1.items.length ≤ 1) :=
  ⟨C2_handoff_capacity.2.1 [QOp.put tA, QOp.put tB, QOp.getNowait],
   C2_handoff_capacity.2.2 [tB] { maxsize := 1, items := [tA] } rfl (by decide)⟩


theorem wstep_flagged_guard (conv : Nat → ConvOutcome) (c : WTConfig) (l : WLabel)
    (d : WTConfig) (hs : WStep conv c l d) (hf : c.redundant_flag = true)
    (hg : atGuard c.pc) :
    atGuard d.pc ∧ d.redundant_flag = true ∧ ∀ n, l ≠ WLabel.claim n := by
  cases hs with
  | outer_stop h1 h2 => exact ⟨trivial, hf, fun n h => by cases h⟩
  | outer_enter h1 h2 => rw [hf] at h2; exact Bool.noConfusion h2
  | inner_exit h1 h2 => exact ⟨trivial, hf, fun n h => by cases h⟩
  | inner_enter h1 h2 h3 => rw [hf] at h2; exact Bool.noConfusion h2
  | claim_ok t rest h1 h2 => rw [h1] at hg; exact hg.elim
  | claim_empty h1 h2 => rw [h1] at hg; exact hg.elim
  | proc_done t h1 h2 => rw [h1] at hg; exact hg.elim
  | proc_raise t h1 h2 => rw [h1] at hg; exact hg.elim
  | sleep_wake h1 => exact ⟨trivial, hf, fun n h => by cases h⟩
  | env_set_flag h1 => rw [hf] at h1; exact Bool.noConfusion h1
  | env_enqueue t h1 => exact ⟨hg, hf, fun n h => by cases h⟩
  | env_steal t rest h1 => exact ⟨hg, hf, fun n h => by cases h⟩

theorem wsteps_flagged_no_claim (conv : Nat → ConvOutcome) :
    ∀ (c : WTConfig) (ls : List WLabel) (d : WTConfig), WSteps conv c ls d →
    c.redundant_flag = true → atGuard c.pc → ∀ n, WLabel.claim n ∉ ls := by
  intro c ls d hs
  induction hs with
  | refl c => intro _ _ n h; exact List.not_mem_nil _ h
  | step c d e l ls hstep hrest ih =>
    intro hf hg n hmem
    obtain ⟨h1, h2, h3⟩ := wstep_flagged_guard conv c l d hstep hf hg
    rcases List.mem_cons.mp hmem with heq | hmem2
    · exact h3 n heq.symm
    · exact ih h2 h1 n hmem2

theorem wsteps_processing_push (conv : Nat → ConvOutcome) :
    ∀ (c : WTConfig) (ls : List WLabel) (d : WTConfig), WSteps conv c ls d →
    ∀ t : UTask, c.pc = WTPc.processing t → conv t.tid ≠ ConvOutcome.raises →
    d.pc = WTPc.stopped → WLabel.push t.tid ∈ ls := by
  intro c ls d hs
  induction hs with
  | refl c =>
    intro t hpc hconv hstop
    exact WTPc.noConfusion (hpc.symm.trans hstop)
  | step c d e l ls hstep hrest ih =>
    intro t hpc hconv hstop
    cases hstep with
    | outer_stop h1 h2 => exact WTPc.noConfusion (hpc.symm.trans h1)
    | outer_enter h1 h2 => exact WTPc.noConfusion (hpc.symm.trans h1)
    | inner_exit h1 h2 => exact WTPc.noConfusion (hpc.symm.trans h1)
    | inner_enter h1 h2 h3 => exact WTPc.noConfusion (hpc.symm.trans h1)
    | claim_ok t2 rest h1 h2 => exact WTPc.noConfusion (hpc.symm.trans h1)
    | claim_empty h1 h2 => exact WTPc.noConfusion (hpc.symm.trans h1)
    | proc_done t2 h1 h2 =>
      injection hpc.symm.trans h1 with ht
      subst ht
      exact List.mem_cons_self _ _
    | proc_raise t2 h1 h2 =>
      injection hpc.symm.trans h1 with ht
      subst ht
      exact absurd h2 hconv
    | sleep_wake h1 => exact WTPc.noConfusion (hpc.symm.trans h1)
    | env_set_flag h1 =>
      exact List.mem_cons_of_mem _ (ih t hpc hconv hstop)
    | env_enqueue t2 h1 =>
      exact List.mem_cons_of_mem _ (ih t hpc hconv hstop)
    | env_steal t2 rest h1 =>
      exact List.mem_cons_of_mem _ (ih t hpc hconv hstop)

theorem wstep_processing_cases (conv : Nat → ConvOutcome) (c : WTConfig) (l : WLabel)
    (d : WTConfig) (t : UTask) (hs : WStep conv c l d) (hpc : c.pc = WTPc.processing t)
    (henv : ¬ envLabel l) :
    (conv t.tid ≠ ConvOutcome.raises ∧ l = WLabel.push t.tid ∧
      d.pc = WTPc.innerCheck ∧ d.current_task = none ∧
      d.complete_queue = c.complete_queue ++ [finishedTask conv t] ∧
      d.task_queue = c.task_queue ∧ d.redundant_flag = c.redundant_flag ∧
      d.log = c.log ++ [LogEntry.finished t.tid]) ∨
    (conv t.tid = ConvOutcome.raises ∧ l = WLabel.exc t.tid ∧
      d.pc = WTPc.innerCheck ∧ d.current_task = c.current_task ∧
      d.complete_queue = c.complete_queue ∧
      d.task_queue = c.task_queue ∧ d.redundant_flag = c.redundant_flag ∧
      d.log = c.log ++ [LogEntry.excInJob t.tid]) := by
  cases hs with
  | outer_stop h1 h2 => exact WTPc.noConfusion (hpc.symm.trans h1)
  | outer_enter h1 h2 => exact WTPc.noConfusion (hpc.symm.trans h1)
  | inner_exit h1 h2 => exact WTPc.noConfusion (hpc.symm.trans h1)
  | inner_enter h1 h2 h3 => exact WTPc.noConfusion (hpc.symm.trans h1)
  | claim_ok t2 rest h1 h2 => exact WTPc.noConfusion (hpc.symm.trans h1)
  | claim_empty h1 h2 => exact WTPc.noConfusion (hpc.symm.trans h1)
  | proc_done t2 h1 h2 =>
    injection hpc.symm.trans h1 with ht
    subst ht
    exact Or.inl ⟨h2, rfl, rfl, rfl, rfl, rfl, rfl, rfl⟩
  | proc_raise t2 h1 h2 =>
    injection hpc.symm.trans h1 with ht
    subst ht
    exact Or.inr ⟨h2, rfl, rfl, rfl, rfl, rfl, rfl, rfl⟩
  | sleep_wake h1 => exact WTPc.noConfusion (hpc.symm.trans h1)
  | env_set_flag h1 => exact absurd trivial henv
  | env_enqueue t2 h1 => exact absurd trivial henv
  | env_steal t2 rest h1 => exact absurd trivial henv

theorem wstep_push_inversion (conv : Nat → ConvOutcome) (c : WTConfig) (l : WLabel)
    (d : WTConfig) (n : Nat) (hs : WStep conv c l d) (hl : l = WLabel.push n) :
    ∃ t : UTask, c.pc = WTPc.processing t ∧ t.tid = n ∧
      conv t.tid ≠ ConvOutcome.raises ∧
      d.complete_queue = c.complete_queue ++ [finishedTask conv t] := by
  cases hs with
  | outer_stop h1 h2 => exact WLabel.noConfusion hl
  | outer_enter h1 h2 => exact WLabel.noConfusion hl
  | inner_exit h1 h2 => exact WLabel.noConfusion hl
  | inner_enter h1 h2 h3 => exact WLabel.noConfusion hl
  | claim_ok t rest h1 h2 => exact WLabel.noConfusion hl
  | claim_empty h1 h2 => exact WLabel.noConfusion hl
  | proc_done t h1 h2 =>
    injection hl with hn
    exact ⟨t, h1, hn, h2, rfl⟩
  | proc_raise t h1 h2 => exact WLabel.noConfusion hl
  | sleep_wake h1 => exact WLabel.noConfusion hl
  | env_set_flag h1 => exact WLabel.noConfusion hl
  | env_enqueue t h1 => exact WLabel.noConfusion hl
  | env_steal t rest h1 => exact WLabel.noConfusion hl

theorem wstep_claim_inversion (conv : Nat → ConvOutcome) (c : WTConfig)
    (d : WTConfig) (n : Nat) (hs : WStep conv c (WLabel.claim n) d) :
    ∃ (t : UTask) (rest : List UTask), c.task_queue = t :: rest ∧ t.tid = n ∧
      d.task_queue = rest ∧ d.pc = WTPc.processing t ∧ d.current_task = some t := by
  generalize hl : WLabel.claim n = l2 at hs
  cases hs with
  | outer_stop h1 h2 => exact WLabel.noConfusion hl
  | outer_enter h1 h2 => exact WLabel.noConfusion hl
  | inner_exit h1 h2 => exact WLabel.noConfusion hl
  | inner_enter h1 h2 h3 => exact WLabel.noConfusion hl
  | claim_ok t rest h1 h2 =>
    injection hl with hn
    exact ⟨t, rest, h2, hn.symm, rfl, rfl, rfl⟩
  | claim_empty h1 h2 => exact WLabel.noConfusion hl
  | proc_done t h1 h2 => exact WLabel.noConfusion hl
  | proc_raise t h1 h2 => exact WLabel.noConfusion hl
  | sleep_wake h1 => exact WLabel.noConfusion hl
  | env_set_flag h1 => exact WLabel.noConfusion hl
  | env_enqueue t h1 => exact WLabel.noConfusion hl
  | env_steal t rest h1 => exact WLabel.noConfusion hl

theorem drainCompletions_go (q : List UTask) :
    ∀ acc : List UTask, drainCompletions false q acc = (acc ++ q, []) := by
  induction q with
  | nil => intro acc; simp [drainCompletions]
  | cons t rest ih =>
    intro acc
    rw [drainCompletions, if_neg (by simp), ih (acc ++ [t])]
    simp

/-- C1: on the normal-completion path a claimed task is pushed exactly once to
the Completion Channel and handed exactly once to mark_item_as_processed.  In
order: a push labelled step happens only from the processing point of a
non-raising task and appends exactly one copy of it; from the processing point
of a non-raising task the unit's own next step is exactly that push (the task
is never silently dropped there); a claim consumes exactly one queue
occurrence and hands the unit exactly that task; and the supervisor's drain
loop calls mark_item_as_processed exactly once per task on the channel, in
order, leaving the channel empty. -/
theorem C1_exactly_once (conv : Nat → ConvOutcome) :
    (∀ (c : WTConfig) (l : WLabel) (d : WTConfig) (n : Nat), WStep conv c l d →
      l = WLabel.push n →
      ∃ t : UTask, c.pc = WTPc.processing t ∧ t.tid = n ∧
        conv t.tid ≠ ConvOutcome.raises ∧
        d.complete_queue = c.complete_queue ++ [finishedTask conv t]) ∧
    (∀ (c : WTConfig) (l : WLabel) (d : WTConfig) (t : UTask), WStep conv c l d →
      c.pc = WTPc.processing t → ¬ envLabel l → conv t.tid ≠ ConvOutcome.raises →
      l = WLabel.push t.tid ∧
      d.complete_queue = c.complete_queue ++ [finishedTask conv t]) ∧
    (∀ (c : WTConfig) (d : WTConfig) (n : Nat), WStep conv c (WLabel.claim n) d →
      ∃ (t : UTask) (rest : List UTask), c.task_queue = t :: rest ∧ t.tid = n ∧
        d.task_queue = rest ∧ d.pc = WTPc.processing t ∧ d.current_task = some t) ∧
    (∀ q : List UTask, drainCompletions false q [] = (q, [])) := by
  refine ⟨?_, ?_, ?_, ?_⟩
  · intro c l d n hs hl
    exact wstep_push_inversion conv c l d n hs hl
  · intro c l d t hs hpc henv hconv
    rcases wstep_processing_cases conv c l d t hs hpc henv with
      ⟨_, hlab, _, _, hcq, _, _, _⟩ | ⟨hr, _, _, _, _, _, _, _⟩
    · exact ⟨hlab, hcq⟩
    · exact absurd hr hconv
  · intro c d n hs
    exact wstep_claim_inversion conv c d n hs
  · intro q
    have := drainCompletions_go q []
    simpa using this

/-- Witness for C1: a successful processing step for task tA and a drain of a
two-task channel. -/
theorem C1_exactly_once_witness :
    (∃ t : UTask, c1cfg.pc = WTPc.processing t ∧ t.tid = 7 ∧
      convOk t.tid ≠ ConvOutcome.raises ∧
      c1cfg2.complete_queue = c1cfg.complete_queue ++ [finishedTask convOk t]) ∧
    (WLabel.push tA.tid = WLabel.push tA.tid ∧
      c1cfg2.complete_queue = c1cfg.complete_queue ++ [finishedTask convOk tA]) ∧
    (∃ (t : UTask) (rest : List UTask), ctryB.task_queue = t :: rest ∧ t.tid = 8 ∧
      rest = rest ∧ WTPc.processing t = WTPc.processing t) ∧
    drainCompletions false [tA, tB] [] = ([tA, tB], []) := by
  refine ⟨?_, ?_, ?_, (C1_exactly_once convOk).2.2.2 [tA, tB]⟩
  · exact (C1_exactly_once convOk).1 c1cfg (WLabel.push 7) c1cfg2 7
      (WStep.proc_done c1cfg tA rfl (by decide)) rfl
  · exact (C1_exactly_once convOk).2.1 c1cfg (WLabel.push tA.tid) c1cfg2 tA
      (WStep.proc_done c1cfg tA rfl (by decide)) rfl (fun h => h) (by decide)
  · obtain ⟨t, rest, h1, h2, _, _, _⟩ :=
      (C1_exactly_once convOk).2.2.1 ctryB
        ⟨WTPc.processing tB, false, some tB, [], [], false, [LogEntry.pickedUp tB.tid]⟩ 8
        (WStep.claim_ok ctryB tB [] rfl rfl)
    exact ⟨t, rest, h1, h2, rfl, rfl⟩

/-- C6: a failure raised during parameter generation or conversion is caught
at single-task granularity: the unit's own step from the processing point of a
raising task logs the exception and returns to the inner guard (the loop is
not terminated and the unit does not stop), leaves the task's success member
unassigned (current_task is carried over unchanged, and nothing is pushed, so
no task with an assigned success flag is produced), and from that guard the
unit can immediately claim and start the next waiting task, so subsequent
dispatch continues. -/
theorem C6_exception_containment (conv : Nat → ConvOutcome) :
    (∀ (c : WTConfig) (l : WLabel) (d : WTConfig) (t : UTask), WStep conv c l d →
      c.pc = WTPc.processing t → conv t.tid = ConvOutcome.raises → ¬ envLabel l →
      l = WLabel.exc t.tid ∧
      d.pc = WTPc.innerCheck ∧ ¬ d.pc = WTPc.stopped ∧
      d.log = c.log ++ [LogEntry.excInJob t.tid] ∧
      d.current_task = c.current_task ∧
      d.complete_queue = c.complete_queue ∧
      d.task_queue = c.task_queue ∧
      d.redundant_flag = c.redundant_flag) ∧
    (∀ (c : WTConfig) (u : UTask) (rest : List UTask),
      c.pc = WTPc.innerCheck → c.redundant_flag = false → c.task_queue = u :: rest →
      ∃ d : WTConfig, WSteps conv c [WLabel.tick, WLabel.claim u.tid] d ∧
        d.pc = WTPc.processing u ∧ d.current_task = some u) := by
  constructor
  · intro c l d t hs hpc hr henv
    rcases wstep_processing_cases conv c l d t hs hpc henv with
      ⟨hnr, _, _, _, _, _, _, _⟩ | ⟨_, hlab, hdpc, hct, hcq, htq, hfl, hlog⟩
    · exact absurd hr hnr
    · exact ⟨hlab, hdpc, fun h => WTPc.noConfusion (hdpc.symm.trans h),
        hlog, hct, hcq, htq, hfl⟩
  · intro c u rest hpc hfl hq
    refine ⟨⟨WTPc.processing u, false, some u, rest, c.complete_queue,
        c.redundant_flag, c.log ++ [LogEntry.pickedUp u.tid]⟩, ?_, rfl, rfl⟩
    exact WSteps.step _ _ _ _ _ (WStep.inner_enter c hpc hfl (by rw [hq]; intro h; cases h))
      (WSteps.step _ _ _ _ _
        (WStep.claim_ok { c with pc := WTPc.tryClaim, idle := false } u rest rfl hq)
        (WSteps.refl _))

/-- Witness for C6: the engine raises on tA while tB waits; the exception is
logged, the unit survives at the inner guard, and it then claims tB. -/
theorem C6_exception_containment_witness :
    (WLabel.exc tA.tid = WLabel.exc tA.tid ∧
      c6cfg2.pc = WTPc.innerCheck ∧ ¬ c6cfg2.pc = WTPc.stopped ∧
      c6cfg2.log = c6cfg.log ++ [LogEntry.excInJob tA.tid] ∧
      c6cfg2.current_task = c6cfg.current_task ∧
      c6cfg2.complete_queue = c6cfg.complete_queue ∧
      c6cfg2.task_queue = c6cfg.task_queue ∧
      c6cfg2.redundant_flag = c6cfg.redundant_flag) ∧
    (∃ d : WTConfig, WSteps convRaise c6cfg2 [WLabel.tick, WLabel.claim tB.tid] d ∧
      d.pc = WTPc.processing tB ∧ d.current_task = some tB) :=
  ⟨(C6_exception_containment convRaise).1 c6cfg (WLabel.exc tA.tid) c6cfg2 tA
      (WStep.proc_raise c6cfg tA rfl rfl) rfl rfl (fun h => h),
   (C6_exception_containment convRaise).2 c6cfg2 tB [] rfl rfl rfl⟩

theorem wsteps_no_tid_in_complete (conv : Nat → ConvOutcome) (n : Nat)
    (hn : conv n = ConvOutcome.raises) :
    ∀ (c : WTConfig) (ls : List WLabel) (d : WTConfig), WSteps conv c ls d →
    (∀ u ∈ c.complete_queue, u.tid ≠ n) → ∀ u ∈ d.complete_queue, u.tid ≠ n := by
  intro c ls d hs
  induction hs with
  | refl c => intro hc; exact hc
  | step c d e l ls hstep hrest ih =>
    intro hc
    refine ih ?_
    cases hstep with
    | outer_stop h1 h2 => exact hc
    | outer_enter h1 h2 => exact hc
    | inner_exit h1 h2 => exact hc
    | inner_enter h1 h2 h3 => exact hc
    | claim_ok t rest h1 h2 => exact hc
    | claim_empty h1 h2 => exact hc
    | proc_done t h1 h2 =>
      intro u hu
      rcases List.mem_append.mp hu with hu1 | hu2
      · exact hc u hu1
      · have hut : u = finishedTask conv t := List.mem_singleton.mp hu2
        subst hut
        intro he
        have ht : t.tid = n := he
        rw [ht] at h2
        exact h2 hn
    | proc_raise t h1 h2 => exact hc
    | sleep_wake h1 => exact hc
    | env_set_flag h1 => exact hc
    | env_enqueue t h1 => exact hc
    | env_steal t rest h1 => exact hc

/-- C7: a task on which the conversion engine raises is lost from the
pipeline, the documented at-most-once gap: no step ever carries a push of its
identity; the Completion Channel never acquires a task of that identity; the
unit's own step on that task only logs the exception, leaving the Completion
Channel and the Handoff Queue unchanged (the task is neither pushed with a
failure flag nor re-queued); and the supervisor's drain therefore never hands
a task of that identity to mark_item_as_processed. -/
theorem C7_raised_task_lost (conv : Nat → ConvOutcome) (n : Nat)
    (hn : conv n = ConvOutcome.raises) :
    (∀ (c : WTConfig) (l : WLabel) (d : WTConfig), WStep conv c l d →
      l ≠ WLabel.push n) ∧
    (∀ (c : WTConfig) (ls : List WLabel) (d : WTConfig), WSteps conv c ls d →
      (∀ u ∈ c.complete_queue, u.tid ≠ n) → ∀ u ∈ d.complete_queue, u.tid ≠ n) ∧
    (∀ (c : WTConfig) (l : WLabel) (d : WTConfig) (t : UTask), WStep conv c l d →
      c.pc = WTPc.processing t → t.tid = n → ¬ envLabel l →
      l = WLabel.exc n ∧ d.complete_queue = c.complete_queue ∧
      d.task_queue = c.task_queue) ∧
    (∀ q : List UTask, (∀ u ∈ q, u.tid ≠ n) →
      ∀ u ∈ (drainCompletions false q []).1, u.tid ≠ n) := by
  refine ⟨?_, wsteps_no_tid_in_complete conv n hn, ?_, ?_⟩
  · intro c l d hs hl
    obtain ⟨t, _, ht, hnr, _⟩ := wstep_push_inversion conv c l d n hs hl
    rw [ht] at hnr
    exact hnr hn
  · intro c l d t hs hpc ht henv
    rcases wstep_processing_cases conv c l d t hs hpc henv with
      ⟨hnr, _, _, _, _, _, _, _⟩ | ⟨_, hlab, _, _, hcq, htq, _, _⟩
    · rw [ht] at hnr; exact absurd hn hnr
    · exact ⟨by rw [hlab, ht], hcq, htq⟩
  · intro q hq u hu
    rw [drainCompletions_go q []] at hu
    simp only [List.nil_append] at hu
    exact hq u hu

/-- Witness for C7: the engine raises on tA (tid 7); the step from its
processing point is the logged exception, the channel stays empty, and a
drain of a channel without tid 7 never marks tid 7. -/
theorem C7_raised_task_lost_witness :
    (WLabel.exc tA.tid ≠ WLabel.push 7) ∧
    (∀ u ∈ c5mid.complete_queue, u.tid ≠ 7) ∧
    (WLabel.exc tA.tid = WLabel.exc 7 ∧
      c5mid.complete_queue = c5start.complete_queue ∧
      c5mid.task_queue = c5start.task_queue) ∧
    (∀ u ∈ (drainCompletions false [tB] []).1, u.tid ≠ 7) := by
  have hstep : WStep convRaise c5start (WLabel.exc tA.tid) c5mid :=
    WStep.proc_raise c5start tA rfl rfl
  refine ⟨(C7_raised_task_lost convRaise 7 rfl).1 c5start _ c5mid hstep, ?_, ?_, ?_⟩
  · exact (C7_raised_task_lost convRaise 7 rfl).2.1 c5start [WLabel.exc tA.tid] c5mid
      (WSteps.step _ _ _ _ _ hstep (WSteps.refl _)) (fun u hu => absurd hu (List.not_mem_nil u))
  · exact (C7_raised_task_lost convRaise 7 rfl).2.2.1 c5start _ c5mid tA hstep rfl rfl
      (fun h => h)
  · exact (C7_raised_task_lost convRaise 7 rfl).2.2.2 [tB] (by decide)

/-- C8: once a unit observes its redundant flag set at one of its guard
points, it never claims another task from the Handoff Queue (the flag is
one-shot, and from a guard with the flag set the unit can only sleep, loop and
stop); and a unit that is mid-task keeps processing regardless of the flag:
on any trace from its processing point that reaches the stopped state, if the
conversion runs to completion the push of that task appears in the trace
before the unit stops. -/
theorem C8_retirement_discipline (conv : Nat → ConvOutcome) :
    (∀ (c : WTConfig) (ls : List WLabel) (d : WTConfig), WSteps conv c ls d →
      c.redundant_flag = true → atGuard c.pc → ∀ n, WLabel.claim n ∉ ls) ∧
    (∀ (c : WTConfig) (ls : List WLabel) (d : WTConfig), WSteps conv c ls d →
      ∀ t : UTask, c.pc = WTPc.processing t → conv t.tid ≠ ConvOutcome.raises →
      d.pc = WTPc.stopped → WLabel.push t.tid ∈ ls) :=
  ⟨wsteps_flagged_no_claim conv, wsteps_processing_push conv⟩

/-- Witness for C8: a flagged idle unit stops without claiming, and a flagged
busy unit pushes its task before stopping. -/
theorem C8_retirement_discipline_witness :
    (∀ n, WLabel.claim n ∉ [WLabel.tick]) ∧
    WLabel.push tA.tid ∈
      [WLabel.push tA.tid, WLabel.tick, WLabel.tick, WLabel.tick] := by
  constructor
  · exact (C8_retirement_discipline convOk).1
      ⟨WTPc.outerCheck, false, none, [], [], true, []⟩ [WLabel.tick]
      ⟨WTPc.stopped, false, none, [], [], true, [LogEntry.stopping]⟩
      (WSteps.step _ _ _ _ _ (WStep.outer_stop _ rfl rfl) (WSteps.refl _))
      rfl trivial
  · exact (C8_retirement_discipline convOk).2
      ⟨WTPc.processing tA, false, some tA, [], [], true, []⟩
      [WLabel.push tA.tid, WLabel.tick, WLabel.tick, WLabel.tick]
      ⟨WTPc.stopped, false, none, [], [finishedTask convOk tA], true,
        [LogEntry.finished tA.tid, LogEntry.stopping]⟩
      (WSteps.step _ _ _ _ _ (WStep.proc_done _ tA rfl (by decide))
        (WSteps.step _ _ _ _ _ (WStep.inner_exit _ rfl (Or.inl rfl))
          (WSteps.step _ _ _ _ _ (WStep.sleep_wake _ rfl)
            (WSteps.step _ _ _ _ _ (WStep.outer_stop _ rfl rfl) (WSteps.refl _)))))
      tA rfl (by decide) rfl

/-- Counterexample to C5 as stated: after the conversion of tA raises, the
exception handler (worker.py lines 127-128) does not clear current_task, so
once the unit has looped back to polling (idle True again, ownership of tA
abandoned), get_status still reports tA's basename and full progress snapshot
-- stale data from the previously owned task, exactly what the claim
excludes for the post-exception case. -/
theorem C5_counterexample :
    WSteps convRaise c5start [WLabel.exc 7, WLabel.tick, WLabel.tick, WLabel.tick] c5end ∧
    c5end.idle = true ∧
    c5end.current_task = some tA ∧
    (get_status 0 worker0name c5end).idle = true ∧
    (get_status 0 worker0name c5end).current_file = "a.mkv" ∧
    ¬ (get_status 0 worker0name c5end).progress = [] := by
  refine ⟨?_, rfl, rfl, rfl, rfl, by decide⟩
  exact WSteps.step _ _ _ _ _ (WStep.proc_raise c5start tA rfl rfl)
    (WSteps.step _ _ _ _ _ (WStep.inner_exit _ rfl (Or.inr rfl))
      (WSteps.step _ _ _ _ _ (WStep.sleep_wake _ rfl)
        (WSteps.step _ _ _ _ _ (WStep.outer_enter _ rfl rfl) (WSteps.refl _))))

/-- C5 amended: get_status reflects the unit's instantaneous state, and on the
normal path ownership clears correctly: after a completed conversion
current_task is cleared, so status shows the empty filename and empty
progress; after a newly claimed task, status shows that task's basename.  The
deviation the counterexample forces: after a task raises, current_task is NOT
cleared (it still holds the raised task), so get_status keeps reporting that
task's basename until the next claim overwrites it. -/
theorem C5_status_freshness (conv : Nat → ConvOutcome) :
    (∀ (c : WTConfig) (l : WLabel) (d : WTConfig) (t : UTask), WStep conv c l d →
      c.pc = WTPc.processing t → ¬ envLabel l → conv t.tid ≠ ConvOutcome.raises →
      d.current_task = none ∧
      ∀ (tid : Nat) (nm : String), (get_status tid nm d).current_file = "" ∧
        (get_status tid nm d).progress = []) ∧
    (∀ (c : WTConfig) (l : WLabel) (d : WTConfig) (t : UTask), WStep conv c l d →
      c.pc = WTPc.processing t → ¬ envLabel l → conv t.tid = ConvOutcome.raises →
      d.current_task = c.current_task ∧
      (c.current_task = some t →
        ∀ (tid : Nat) (nm : String),
          (get_status tid nm d).current_file = t.source_basename)) ∧
    (∀ (c : WTConfig) (d : WTConfig) (n : Nat), WStep conv c (WLabel.claim n) d →
      ∃ (t : UTask) (rest : List UTask), c.task_queue = t :: rest ∧
        d.current_task = some t ∧
        ∀ (tid : Nat) (nm : String),
          (get_status tid nm d).current_file = t.source_basename) := by
  refine ⟨?_, ?_, ?_⟩
  · intro c l d t hs hpc henv hnr
    rcases wstep_processing_cases conv c l d t hs hpc henv with
      ⟨_, _, _, hct, _, _, _, _⟩ | ⟨hr, _, _, _, _, _, _, _⟩
    · exact ⟨hct, fun tid nm => by simp [get_status, getJobProgress, hct]⟩
    · exact absurd hr hnr
  · intro c l d t hs hpc henv hr
    rcases wstep_processing_cases conv c l d t hs hpc henv with
      ⟨hnr, _, _, _, _, _, _, _⟩ | ⟨_, _, _, hct, _, _, _, _⟩
    · exact absurd hr hnr
    · exact ⟨hct, fun hsome tid nm => by simp [get_status, hct, hsome]⟩
  · intro c d n hs
    obtain ⟨t, rest, h1, h2, h3, h4, h5⟩ := wstep_claim_inversion conv c d n hs
    exact ⟨t, rest, h1, h5, fun tid nm => by simp [get_status, h5]⟩

/-- Witness for the amended C5: a completed tA clears the status; a raised tA
leaves its basename visible; a claim of tB makes its basename visible. -/
theorem C5_status_freshness_witness :
    (c1cfg2.current_task = none ∧
      ∀ (tid : Nat) (nm : String), (get_status tid nm c1cfg2).current_file = "" ∧
        (get_status tid nm c1cfg2).progress = []) ∧
    (c5mid.current_task = c5start.current_task ∧
      (c5start.current_task = some tA →
        ∀ (tid : Nat) (nm : String),
          (get_status tid nm c5mid).current_file = tA.source_basename)) ∧
    (∃ (t : UTask) (rest : List UTask), ctryB.task_queue = t :: rest ∧
      ctryB2.current_task = some t ∧
      ∀ (tid : Nat) (nm : String),
        (get_status tid nm ctryB2).current_file = t.source_basename) :=
  ⟨(C5_status_freshness convOk).1 c1cfg (WLabel.push tA.tid) c1cfg2 tA
      (WStep.proc_done c1cfg tA rfl (by decide)) rfl (fun h => h) (by decide),
   (C5_status_freshness convRaise).2.1 c5start (WLabel.exc tA.tid) c5mid tA
      (WStep.proc_raise c5start tA rfl rfl) rfl (fun h => h) rfl,
   (C5_status_freshness convOk).2.2 ctryB ctryB2 tB.tid
      (WStep.claim_ok ctryB tB [] rfl rfl)⟩

/-- Counterexample to C9 as stated: getAllHistoricalTasks returns the settings
object's read_history_log (worker.py line 236), not the job queue's; on a
worker whose two collaborators hold different histories the result differs
from the job queue's history log. -/
theorem C9_counterexample :
    getAllHistoricalTasks w9 ≠ w9.job_queue.read_history_log ∧
    getAllHistoricalTasks w9 = w9.settings.read_history_log := by
  constructor
  · decide
  · rfl

/-- C9 amended: getAllHistoricalTasks is a pure pass-through returning exactly
settings.read_history_log(), unchanged; whenever the settings history differs
from the job queue's history, the result is not the job queue's history. -/
theorem C9_history_passthrough (w : WorkerModel) :
    getAllHistoricalTasks w = w.settings.read_history_log ∧
    (w.settings.read_history_log ≠ w.job_queue.read_history_log →
      getAllHistoricalTasks w ≠ w.job_queue.read_history_log) :=
  ⟨rfl, fun h => h⟩

/-- Witness for the amended C9 at the concrete worker w9. -/
theorem C9_history_passthrough_witness :
    getAllHistoricalTasks w9 = w9.settings.read_history_log ∧
    getAllHistoricalTasks w9 ≠ w9.job_queue.read_history_log :=
  ⟨(C9_history_passthrough w9).1, (C9_history_passthrough w9).2 (by decide)⟩
